import Mathlib

/-!
Verification of the flexible tool-adapter layer of the mnotify-mcp-server
repository (src/tool_adapter.py).  Python runtime values are embedded as the
inductive `Val`; Python dicts are embedded as association lists
(`AList := List (String × Val)`) with first-match lookup and in-place
replacement, mirroring dict semantics.  Each definition below is a direct
translation of the correspondingly named Python construct; Python string
primitives (`strip`, `split`, `lower`, ...) are embedded as executable
functions over character lists.
-/

namespace MNotify

/-- Python runtime values as they occur in tool-call arguments:
`None`, `str`, `bool`, `int`, `float`, `list`, `dict`.
Floats are represented by rationals; the Python binary floating point
representation and its string formatting are not modelled exactly (no claim
evaluates a float or formats one). -/
inductive Val where
  | none : Val
  | str (s : String) : Val
  | bool (b : Bool) : Val
  | int (n : Int) : Val
  | float (q : Rat) : Val
  | list (xs : List Val) : Val
  | dict (xs : List (String × Val)) : Val

/-- A Python dict of argument name to value, as an association list
(first match wins on lookup, assignment replaces in place). -/
abbrev AList := List (String × Val)

/-- Membership test for a key, `k in d` in Python. -/
def hasKey (m : AList) (k : String) : Bool :=
  m.any (fun kv => kv.1 == k)

/-- `d.get(k)` in Python: the value at the first occurrence of `k`. -/
def lookupA (m : AList) (k : String) : Option Val :=
  List.lookup k m

/-- `d[k] = v` in Python: replace the first occurrence of `k`,
or append the pair when `k` is absent. -/
def setK : AList → String → Val → AList
  | [], k, v => [(k, v)]
  | kv :: rest, k, v => if kv.1 == k then (k, v) :: rest else kv :: setK rest k v

/-- `d.pop(k)` in Python (the removal part): drop the first occurrence of `k`. -/
def eraseK : AList → String → AList
  | [], _ => []
  | kv :: rest, k => if kv.1 == k then rest else kv :: eraseK rest k

/-- `d.update(n)` in Python: assign every pair of `n` into `m`, in order. -/
def updateA (m n : AList) : AList :=
  n.foldl (fun acc kv => setK acc kv.1 kv.2) m

/-! ### Python string primitives over character lists -/

/-- The characters Python `str.strip()` removes (the ASCII whitespace set;
Unicode whitespace is not modelled). -/
def isPyWs (c : Char) : Bool :=
  c == ' ' || c == '\t' || c == '\n' || c == '\r' || c == '\x0b' || c == '\x0c'

/-- Python `s.strip()`: drop leading and trailing whitespace. -/
def pyStrip (s : String) : String :=
  String.mk (((s.toList.dropWhile isPyWs).reverse.dropWhile isPyWs).reverse)

/-- ASCII lowering of one character (Python `str.lower()`; non-ASCII case
folding is not modelled). -/
def lowerChar (c : Char) : Char :=
  if 65 ≤ c.toNat && c.toNat ≤ 90 then Char.ofNat (c.toNat + 32) else c

/-- Python `s.lower()`. -/
def pyLower (s : String) : String :=
  String.mk (s.toList.map lowerChar)

/-- Python `s.split(",")` on character lists: pieces between commas,
keeping empty pieces. -/
def splitCommaCs : List Char → List (List Char)
  | [] => [[]]
  | c :: rest =>
    let r := splitCommaCs rest
    if c == ',' then [] :: r
    else
      match r with
      | h :: t => (c :: h) :: t
      | [] => [[c]]

/-- Python `s.split(",")`. -/
def pySplitComma (s : String) : List String :=
  (splitCommaCs s.toList).map String.mk

/-- Python `s.split()` (no argument): maximal runs of non-whitespace,
with an accumulator for the current reversed word. -/
def wsTokensGo : List Char → List Char → List (List Char)
  | [], cur => if cur.isEmpty then [] else [cur.reverse]
  | c :: rest, cur =>
    if isPyWs c then
      if cur.isEmpty then wsTokensGo rest [] else cur.reverse :: wsTokensGo rest []
    else wsTokensGo rest (c :: cur)

/-- Python `s.split()`. -/
def pyWords (s : String) : List String :=
  (wsTokensGo s.toList []).map String.mk

/-- Code-point comparison of strings, Python `a <= b` (the order used by
`sorted`). -/
def lexLe : List Char → List Char → Bool
  | [], _ => true
  | _ :: _, [] => false
  | a :: as, b :: bs =>
    if a.toNat < b.toNat then true
    else if a.toNat == b.toNat then lexLe as bs
    else false

/-- Python `a <= b` on strings. -/
def strLeB (a b : String) : Bool :=
  lexLe a.toList b.toList

/-- First-occurrence deduplication with an explicit seen list (the content
of Python `set(l)`, in first-seen order). -/
def dedupFirst : List String → List String → List String
  | [], _ => []
  | x :: xs, seen =>
    if seen.contains x then dedupFirst xs seen else x :: dedupFirst xs (x :: seen)

/-! ### Python value rendering, truthiness and equality -/

/-- Python truthiness `bool(v)` of an embedded value. -/
def pyTruthy : Val → Bool
  | Val.none => false
  | Val.str s => s ≠ ""
  | Val.bool b => b
  | Val.int n => n ≠ 0
  | Val.float q => q ≠ 0
  | Val.list xs => !xs.isEmpty
  | Val.dict xs => !xs.isEmpty

/-- Python `repr` of a string: quoted with single quotes, or double quotes
when the string itself holds a single quote; escape sequences for strings
containing both quote kinds are not modelled. -/
def strRepr (s : String) : String :=
  if s.toList.any (fun c => c == '\'') && !s.toList.any (fun c => c == '"') then
    "\"" ++ s ++ "\""
  else "'" ++ s ++ "'"

mutual

/-- Python `repr(v)`: like `str` but strings are quoted. -/
def pyRepr : Val → String
  | Val.str s => strRepr s
  | Val.none => "None"
  | Val.bool b => if b then "True" else "False"
  | Val.int n => toString n
  | Val.float q => toString q
  | Val.list xs => "[" ++ String.intercalate ", " (pyReprList xs) ++ "]"
  | Val.dict xs => "\x7b" ++ String.intercalate ", " (pyDictItems xs) ++ "\x7d"
termination_by structural v => v

/-- `repr` of each element of a list. -/
def pyReprList : List Val → List String
  | [] => []
  | v :: vs => pyRepr v :: pyReprList vs
termination_by structural l => l

/-- `repr(k): repr(v)` items of a dict. -/
def pyDictItems : List (String × Val) → List String
  | [] => []
  | (k, v) :: rest => (strRepr k ++ ": " ++ pyRepr v) :: pyDictItems rest
termination_by structural l => l

end

/-- Python `str(v)`.  Strings render as themselves; containers render their
elements with `repr`, as Python does. -/
def pyStr : Val → String
  | Val.none => "None"
  | Val.str s => s
  | Val.bool b => if b then "True" else "False"
  | Val.int n => toString n
  | Val.float q => toString q
  | Val.list xs => "[" ++ String.intercalate ", " (pyReprList xs) ++ "]"
  | Val.dict xs => "\x7b" ++ String.intercalate ", " (pyDictItems xs) ++ "\x7d"

/-- The numeric value of a Python number for `==` purposes; `bool` is a
subclass of `int` (`True == 1`). -/
def pyNum : Val → Option Rat
  | Val.bool b => some (if b then 1 else 0)
  | Val.int n => some (n : Rat)
  | Val.float q => some q
  | _ => Option.none

mutual

/-- Python `==` on embedded values: numbers compare across `bool`/`int`/
`float`; strings, lists and dicts compare structurally; distinct
non-numeric kinds are unequal. -/
def pyEq : Val → Val → Bool
  | Val.none, b => match b with | Val.none => true | _ => false
  | Val.str s, b => match b with | Val.str t => s == t | _ => false
  | Val.bool x, b => match pyNum b with
    | some y => (if x then (1 : Rat) else 0) == y
    | Option.none => false
  | Val.int n, b => match pyNum b with
    | some y => ((n : Rat)) == y
    | Option.none => false
  | Val.float q, b => match pyNum b with
    | some y => q == y
    | Option.none => false
  | Val.list xs, b => match b with | Val.list ys => pyEqList xs ys | _ => false
  | Val.dict xs, b => match b with
    | Val.dict ys => xs.length == ys.length && pyDictLe xs ys
    | _ => false
termination_by structural a => a

/-- Pointwise `==` on Python lists (including the length check). -/
def pyEqList : List Val → List Val → Bool
  | [], ys => ys.isEmpty
  | x :: xs, ys =>
    match ys with
    | y :: ys => pyEq x y && pyEqList xs ys
    | [] => false
termination_by structural l => l

/-- Every entry of the first dict appears (by key) in the second with an
`==` value. -/
def pyDictLe : List (String × Val) → List (String × Val) → Bool
  | [], _ => true
  | (k, v) :: rest, ys =>
    (match List.lookup k ys with
     | some w => pyEq v w
     | Option.none => false) && pyDictLe rest ys
termination_by structural l => l

end

/-! ### Coercers (`_to_str`, `_to_bool`, `_to_int`, `_to_float`, `_to_str_list`) -/

/-- `_to_str`: `""` for `None`, otherwise `str(value)`. -/
def toStrCoerce (v : Val) : String :=
  match v with
  | Val.none => ""
  | _ => pyStr v

/-- `_to_bool`: native booleans pass through; numbers by truthiness; strings
matched case-insensitively against the true/false word sets, otherwise
generic truthiness of the original value. -/
def toBoolCoerce (v : Val) : Bool :=
  match v with
  | Val.bool b => b
  | Val.int n => n ≠ 0
  | Val.float q => q ≠ 0
  | Val.str s =>
      let t := pyLower (pyStrip s)
      if t == "true" || t == "yes" || t == "y" || t == "1" then true
      else if t == "false" || t == "no" || t == "n" || t == "0" then false
      else pyTruthy (Val.str s)
  | _ => pyTruthy v

/-- One run of decimal digits with single underscores allowed between digits
(Python numeric literal grammar); accumulates the value and the digit count,
returning the unconsumed rest.  `Option.none` marks a malformed underscore. -/
def takeDigits : List Char → Nat → Nat → Option (Nat × Nat × List Char)
  | [], acc, n => some (acc, n, [])
  | '_' :: c :: rest, acc, n =>
      if n > 0 && c.isDigit then takeDigits rest (acc * 10 + (c.toNat - 48)) (n + 1)
      else Option.none
  | ['_'], _, _ => Option.none
  | c :: rest, acc, n =>
      if c.isDigit then takeDigits rest (acc * 10 + (c.toNat - 48)) (n + 1)
      else some (acc, n, c :: rest)

/-- Digits of a Python `int(...)` literal: at least one digit, underscores
only between digits, nothing left over. -/
def parsePyNat : List Char → Option Nat
  | cs =>
    match takeDigits cs 0 0 with
    | some (acc, n, []) => if n > 0 then some acc else Option.none
    | _ => Option.none

/-- Python `int(s)` on an already stripped string: optional sign then digits.
(Unicode digits are not modelled.) -/
def parsePyInt (s : String) : Option Int :=
  match s.toList with
  | '+' :: rest => (parsePyNat rest).map Int.ofNat
  | '-' :: rest => (parsePyNat rest).map (fun n => -(n : Int))
  | cs => (parsePyNat cs).map Int.ofNat

/-- Exponent part of a float literal: optional sign then digits. -/
def parsePyExp : List Char → Option Int
  | '+' :: rest => (parsePyNat rest).map Int.ofNat
  | '-' :: rest => (parsePyNat rest).map (fun n => -(n : Int))
  | cs => (parsePyNat cs).map Int.ofNat

/-- Mantissa and exponent of a Python float literal (after the sign):
`digits [. digits] [e digits]` with at least one mantissa digit.
(`inf`/`nan` spellings are not modelled; no claim touches them.) -/
def parsePyFloatBody (cs : List Char) : Option Rat :=
  match takeDigits cs 0 0 with
  | Option.none => Option.none
  | some (ip, ic, r1) =>
    match r1 with
    | '.' :: r2 =>
      match takeDigits r2 0 0 with
      | Option.none => Option.none
      | some (fp, fc, r3) =>
        if ic + fc == 0 then Option.none
        else
          let mant : Rat := (ip : Rat) + (fp : Rat) / ((10 : Rat) ^ fc)
          match r3 with
          | [] => some mant
          | 'e' :: r4 => (parsePyExp r4).map (fun e => mant * (10 : Rat) ^ e)
          | 'E' :: r4 => (parsePyExp r4).map (fun e => mant * (10 : Rat) ^ e)
          | _ => Option.none
    | [] => if ic > 0 then some (ip : Rat) else Option.none
    | 'e' :: r4 =>
        if ic > 0 then (parsePyExp r4).map (fun e => (ip : Rat) * (10 : Rat) ^ e)
        else Option.none
    | 'E' :: r4 =>
        if ic > 0 then (parsePyExp r4).map (fun e => (ip : Rat) * (10 : Rat) ^ e)
        else Option.none
    | _ => Option.none

/-- Python `float(s)` on an already stripped string. -/
def parsePyFloat (s : String) : Option Rat :=
  match s.toList with
  | '+' :: rest => parsePyFloatBody rest
  | '-' :: rest => (parsePyFloatBody rest).map Neg.neg
  | cs => parsePyFloatBody cs

/-- Python `int(q)` on a float: truncation toward zero. -/
def ratTruncInt (q : Rat) : Int :=
  if q < 0 then -((-q).floor) else q.floor

/-- `_to_int`: `int` (and `bool`, a Python `int` subclass) pass through
unchanged; floats truncate; otherwise `int(str(value).strip())`, whose
failure is a coercion fault (`Except.error`). -/
def toIntCoerce : Val → Except String Val
  | Val.bool b => Except.ok (Val.bool b)
  | Val.int n => Except.ok (Val.int n)
  | Val.float q => Except.ok (Val.int (ratTruncInt q))
  | v =>
    match parsePyInt (pyStrip (pyStr v)) with
    | some n => Except.ok (Val.int n)
    | Option.none => Except.error ("invalid literal for int(): " ++ pyStr v)

/-- `_to_float`: numbers (including `bool`) pass through as floats;
otherwise `float(str(value).strip())`, whose failure is a coercion fault. -/
def toFloatCoerce : Val → Except String Val
  | Val.bool b => Except.ok (Val.float (if b then 1 else 0))
  | Val.int n => Except.ok (Val.float (n : Rat))
  | Val.float q => Except.ok (Val.float q)
  | v =>
    match parsePyFloat (pyStrip (pyStr v)) with
    | some q => Except.ok (Val.float q)
    | Option.none => Except.error ("could not convert string to float: " ++ pyStr v)

/-- Python `s.strip("\"'")`: drop every leading and trailing quote character
(single or double, in any combination). -/
def stripQuotes (s : String) : String :=
  let isQuote : Char → Bool := fun c => c == '"' || c == '\''
  String.mk (((s.toList.dropWhile isQuote).reverse.dropWhile isQuote).reverse)

/-- `_to_str_list`: a native list is element-wise stringified and trimmed,
elements blank after trimming are dropped, and the kept ones have quote
characters stripped; a scalar is stringified, one enclosing `[...]` layer is
removed, the result is split on commas and each piece trimmed, with blank
pieces dropped and the kept ones quote-stripped. -/
def toStrListCoerce : Val → List String
  | Val.none => []
  | Val.list xs =>
      xs.filterMap (fun x =>
        let t := pyStrip (pyStr x)
        if t == "" then Option.none else some (stripQuotes t))
  | v =>
      let raw := pyStrip (pyStr v)
      let cs := raw.toList
      let raw :=
        if (cs.head? == some '[') && (cs.getLast? == some ']') then
          String.mk (cs.drop 1).dropLast
        else raw
      let parts := (pySplitComma raw).map pyStrip
      parts.filterMap (fun p =>
        if pyStrip p == "" then Option.none else some (stripQuotes (pyStrip p)))

/-- `_coerce_value`: dispatch on the expected-type string; unrecognized
strings pass the value through unchanged. -/
def coerceValue (expected : String) (v : Val) : Except String Val :=
  if expected == "str" then Except.ok (Val.str (toStrCoerce v))
  else if expected == "bool" then Except.ok (Val.bool (toBoolCoerce v))
  else if expected == "int" then toIntCoerce v
  else if expected == "float" then toFloatCoerce v
  else if expected == "list" || expected == "list[str]" then
    Except.ok (Val.list ((toStrListCoerce v).map Val.str))
  else Except.ok v

end MNotify

namespace MNotify

/-! ### Override model (`FunctionOverride`) and wrapper pipeline
(`make_flex_wrapper.wrapper`) -/

/-- One `required_if` rule `{param: ..., when: {...}}`. -/
structure RequiredIfRule where
  param : String
  whenConds : List (String × Val)

/-- `FunctionOverride`: the per-function declarative configuration. -/
structure FunctionOverride where
  expected_types : List (String × String) := []
  required : List String := []
  optional : List String := []
  required_if : List RequiredIfRule := []
  defaults : List (String × Val) := []
  aliases : List (String × String) := []
  max_lengths : List (String × Nat) := []

/-- The envelope unwrap at the top of `wrapper`: a single-entry mapping
whose only key is `kwargs` with a dict value is replaced by that inner
dict. -/
def unwrapEnvelope (m : AList) : AList :=
  match m with
  | [(k, Val.dict inner)] => if k == "kwargs" then inner else m
  | _ => m

/-- The canonical spelling of the common key variants
(`phoneNumber`/`phone_number` → `phone`, and so on); other keys are their
own canonical form. -/
def canonOf (k : String) : String :=
  if k == "phoneNumber" || k == "phone_number" then "phone"
  else if k == "groupId" || k == "group" then "group_id"
  else if k == "contactId" then "contact_id"
  else if k == "templateId" then "template_id"
  else if k == "campaignId" then "campaign_id"
  else k

/-- One step of the key-rewrite collection loop: record `canonical ↦ value`
when the canonical key is not already present in the original mapping. -/
def rwStep (m acc : AList) (kv : String × Val) : AList :=
  let c := canonOf kv.1
  if hasKey m c then acc else setK acc c kv.2

/-- The collected `normalized` dict of the key-rewrite loop. -/
def rewriteAux (m : AList) : AList :=
  m.foldl (rwStep m) []

/-- The key-rewrite loop of the normalizer: collect `canonical ↦ value` for
every entry whose canonical key is not already present in the original
mapping, then `update` the mapping with the collected entries. -/
def rewriteKeys (m : AList) : AList :=
  updateA m (rewriteAux m)

/-- Whitespace tokens of `str(v).strip()`, Python `text.split()`. -/
def nameParts (v : Val) : List String :=
  pyWords (pyStrip (pyStr v))

/-- The `full_name`-or-`name` value the name-splitting step inspects. -/
def fvOf (m : AList) : Option Val :=
  if hasKey m "full_name" then lookupA m "full_name"
  else if hasKey m "name" then lookupA m "name"
  else Option.none

/-- The name-splitting step: when `full_name` (else `name`) is present and
truthy and neither `first_name` nor `last_name` is present, split into
tokens; one token sets `first_name`, two or more set `first_name` to all but
the last joined by single spaces and `last_name` to the last. -/
def splitName (m : AList) : AList :=
  match fvOf m with
  | Option.none => m
  | some v =>
    if pyTruthy v && (!hasKey m "first_name" && !hasKey m "last_name") then
      match nameParts v with
      | [] => m
      | [p] => setK m "first_name" (Val.str p)
      | p :: q :: rest =>
        let ps := p :: q :: rest
        setK (setK m "first_name" (Val.str (String.intercalate " " ps.dropLast)))
          "last_name" (Val.str (ps.getLast (List.cons_ne_nil p (q :: rest))))
    else m

/-- First element of `contacts` whose stringified stripped form is
non-empty. -/
def firstNonEmpty (xs : List Val) : Option String :=
  xs.findSome? (fun x =>
    let s := pyStrip (pyStr x)
    if s == "" then Option.none else some s)

/-- The contacts-to-phone folding step: when a non-empty `contacts` list is
present and `phone` is absent, bind `phone` to the first non-blank
stringified element. -/
def foldContacts (m : AList) : AList :=
  if hasKey m "contacts" && !hasKey m "phone" then
    match lookupA m "contacts" with
    | some (Val.list xs) =>
      if xs.isEmpty then m
      else
        match firstNonEmpty xs with
        | some s => setK m "phone" (Val.str s)
        | Option.none => m
    | _ => m
  else m

/-- The Normalizer: key rewrites, then name splitting, then contacts
folding (the `try` block of `wrapper`; no step of the embedding can fault,
matching the behaviour of the source on representable values). -/
def normalize (m : AList) : AList :=
  foldContacts (splitName (rewriteKeys m))

/-- The Alias Resolver: for each `(alias, canonical)` pair in order, when
`alias` is present and `canonical` absent, pop `alias` and assign its value
to `canonical`. -/
def applyAliases (al : List (String × String)) (m : AList) : AList :=
  al.foldl (fun acc p =>
    if hasKey acc p.1 && !hasKey acc p.2 then
      match lookupA acc p.1 with
      | some v => setK (eraseK acc p.1) p.2 v
      | Option.none => acc
    else acc) m

/-- `override.expected_types.get(name) or inferred`: the override entry wins
unless absent or empty (Python `or` falls through on a falsy string). -/
def resolveExpected (ov : FunctionOverride) (inferred : String) (name : String) : String :=
  match List.lookup name ov.expected_types with
  | some e => if e == "" then inferred else e
  | Option.none => inferred

/-- The coercion loop over the declared parameters: for every signature
entry `(name, inferredKind)` whose name the arguments contain, coerce the
argument at the resolved kind and assign it, propagating coercion faults. -/
def bindParams (sig : List (String × String)) (ov : FunctionOverride) (m : AList)
    (b : AList) : Except String AList :=
  sig.foldlM (fun acc p =>
    match lookupA m p.1 with
    | some v => do
      let coerced ← coerceValue (resolveExpected ov p.2 p.1) v
      pure (setK acc p.1 coerced)
    | Option.none => pure acc) b

/-- The pass-through loop: every argument key not already bound is copied
into the binding unchanged. -/
def passThrough (m b : AList) : AList :=
  m.foldl (fun acc kv => if hasKey acc kv.1 then acc else setK acc kv.1 kv.2) b

/-- Binding construction: seed with `defaults`, coerce-and-bind the declared
parameters present in the arguments, then pass the remaining argument keys
through unchanged. -/
def buildBinding (sig : List (String × String)) (ov : FunctionOverride) (m : AList) :
    Except String AList := do
  let b0 := ov.defaults.foldl (fun acc kv => setK acc kv.1 kv.2) []
  let b1 ← bindParams sig ov m b0
  pure (passThrough m b1)

/-- The emptiness test of the validator:
`bound_args.get(x) in (None, "", [], {})`. -/
def isMissingVal (v : Option Val) : Bool :=
  match v with
  | Option.none => true
  | some x =>
      pyEq x Val.none || pyEq x (Val.str "") || pyEq x (Val.list []) || pyEq x (Val.dict [])

/-- Names of the plain `required` set whose bound value is missing. -/
def plainMissing (ov : FunctionOverride) (b : AList) : List String :=
  ov.required.filter (fun r => isMissingVal (lookupA b r))

/-- A `required_if` rule fires when every `when` condition `==`-matches the
bound value (absent compares as `None`). -/
def ruleMeets (b : AList) (rule : RequiredIfRule) : Bool :=
  rule.whenConds.all (fun kv => pyEq ((lookupA b kv.1).getD Val.none) kv.2)

/-- Parameters of firing `required_if` rules whose bound value is missing. -/
def condMissing (ov : FunctionOverride) (b : AList) : List String :=
  (ov.required_if.filter (fun rule => ruleMeets b rule && isMissingVal (lookupA b rule.param))).map
    (fun rule => rule.param)

/-- `sorted(set(l))` for strings: the distinct elements in code-point
lexicographic order. -/
def sortedDedup (l : List String) : List String :=
  (dedupFirst l []).insertionSort (fun a b => strLeB a b = true)

/-- The aggregated missing-parameter error text. -/
def missingMsg (names : List String) : String :=
  "Missing required parameter(s): " ++ String.intercalate ", " names

/-- The max-length error text, reporting field, actual length and limit. -/
def lenMsg (field : String) (actual lim : Nat) : String :=
  field ++ " is too long (" ++ toString actual ++ " characters). Maximum allowed is "
    ++ toString lim ++ ". Please shorten it and try again."

/-- First `max_lengths` entry whose bound value is a string strictly longer
than its limit, with the actual length. -/
def firstLenViolation (ml : List (String × Nat)) (b : AList) : Option (String × Nat × Nat) :=
  ml.findSome? (fun p =>
    match lookupA b p.1 with
    | some (Val.str s) => if s.length > p.2 then some (p.1, s.length, p.2) else Option.none
    | _ => Option.none)

/-- Outcome of a wrapped call that did not fault: either the structured
`{error: ...}` value, or invocation of the domain function on the final
binding (the binding is returned so that any opaque domain function is
covered). -/
inductive CallResult where
  | errorResult (msg : String) : CallResult
  | invoked (bound : AList) : CallResult

/-- The fully populated Binding of a call: envelope unwrap, normalization
and alias resolution followed by binding construction. -/
def bindingOf (sig : List (String × String)) (ov : FunctionOverride) (m : AList) :
    Except String AList :=
  buildBinding sig ov (applyAliases ov.aliases (normalize (unwrapEnvelope m)))

/-- `make_flex_wrapper.wrapper`: build the binding, reject on the aggregated
missing names (sorted, deduplicated), then on the first max-length
violation, otherwise invoke the domain function on the binding.  A fault in
coercion propagates as `Except.error`. -/
def wrapper (sig : List (String × String)) (ov : FunctionOverride) (m : AList) :
    Except String CallResult := do
  let bound ← bindingOf sig ov m
  let missing := plainMissing ov bound ++ condMissing ov bound
  if missing.isEmpty then
    match firstLenViolation ov.max_lengths bound with
    | some v => pure (CallResult.errorResult (lenMsg v.1 v.2.1 v.2.2))
    | Option.none => pure (CallResult.invoked bound)
  else
    pure (CallResult.errorResult (missingMsg (sortedDedup missing)))

/-- `default_overrides()["send_quick_bulk_sms"]` (the registry merge of the
global alias table for this function yields the same single alias pair). -/
def sendQuickBulkSmsOverride : FunctionOverride where
  expected_types :=
    [("recipient", "list[str]"), ("sender_id", "str"), ("message", "str"),
     ("schedule", "bool"), ("schedule_time", "str")]
  required := ["recipient", "sender_id", "message"]
  optional := ["schedule", "schedule_time"]
  required_if := [⟨"schedule_time", [("schedule", Val.bool true)]⟩]
  defaults := [("schedule", Val.bool false)]
  aliases := [("recipients", "recipient")]
  max_lengths := [("message", 460)]

/-- Modelled from the spec: the declared signature of the domain function
`send_quick_bulk_sms` (its module `functions` is not part of the sources;
the spec's end-to-end scenario fixes the parameter names and the override
fixes every coercion kind, so the inferred kinds below are never
consulted). -/
def sendQuickBulkSmsSig : List (String × String) :=
  [("recipient", "list[str]"), ("sender_id", "str"), ("message", "str"),
   ("schedule", "bool"), ("schedule_time", "str")]

end MNotify

namespace MNotify

/-! ### Association-list lemmas -/

theorem lookupA_nil (k : String) : lookupA [] k = Option.none := rfl

theorem lookupA_cons (kv : String × Val) (m : AList) (k : String) :
    lookupA (kv :: m) k = if k = kv.1 then some kv.2 else lookupA m k := by
  cases kv with
  | mk a b =>
    by_cases h : k = a
    · simp [lookupA, List.lookup, h]
    · have hb : (k == a) = false := beq_eq_false_iff_ne.mpr h
      simp [lookupA, List.lookup, hb, h]

theorem hasKey_nil (k : String) : hasKey [] k = false := rfl

theorem hasKey_cons (kv : String × Val) (m : AList) (k : String) :
    hasKey (kv :: m) k = ((kv.1 == k) || hasKey m k) := by
  simp [hasKey, List.any_cons]

theorem setK_cons (kv : String × Val) (m : AList) (k : String) (v : Val) :
    setK (kv :: m) k v = if kv.1 = k then (k, v) :: m else kv :: setK m k v := by
  by_cases h : kv.1 = k <;> simp [setK, h]

theorem eraseK_cons (kv : String × Val) (m : AList) (k : String) :
    eraseK (kv :: m) k = if kv.1 = k then m else kv :: eraseK m k := by
  by_cases h : kv.1 = k <;> simp [eraseK, h]

theorem hasKey_iff_lookupA (m : AList) (k : String) :
    hasKey m k = true ↔ ∃ v, lookupA m k = some v := by
  induction m with
  | nil => simp [hasKey_nil, lookupA_nil]
  | cons kv rest ih =>
    rw [hasKey_cons, lookupA_cons]
    by_cases h : kv.1 = k
    · simp [h]
    · have h' : ¬ k = kv.1 := fun hh => h hh.symm
      simp [h, h', ih]

theorem hasKey_false_lookupA (m : AList) (k : String) (h : hasKey m k = false) :
    lookupA m k = Option.none := by
  cases hl : lookupA m k with
  | none => rfl
  | some v =>
    have ht : hasKey m k = true := (hasKey_iff_lookupA m k).2 ⟨v, hl⟩
    rw [ht] at h
    exact absurd h (by simp)

theorem lookupA_setK_self (m : AList) (k : String) (v : Val) :
    lookupA (setK m k v) k = some v := by
  induction m with
  | nil => simp [setK, lookupA_cons]
  | cons kv rest ih =>
    rw [setK_cons]
    by_cases h : kv.1 = k
    · simp [h, lookupA_cons]
    · rw [if_neg h, lookupA_cons, if_neg (fun hh => h hh.symm)]
      exact ih

theorem lookupA_setK_ne (m : AList) (k k' : String) (v : Val) (h : k' ≠ k) :
    lookupA (setK m k v) k' = lookupA m k' := by
  induction m with
  | nil => simp [setK, lookupA_cons, lookupA_nil, h]
  | cons kv rest ih =>
    rw [setK_cons]
    by_cases hk : kv.1 = k
    · rw [if_pos hk, lookupA_cons, lookupA_cons, if_neg h]
      rw [if_neg (fun hh : k' = kv.1 => h (by rw [hh, hk]))]
    · rw [if_neg hk, lookupA_cons, lookupA_cons, ih]

theorem hasKey_setK (m : AList) (k k' : String) (v : Val) :
    hasKey (setK m k v) k' = ((k == k') || hasKey m k') := by
  induction m with
  | nil => simp [setK, hasKey_cons, hasKey_nil]
  | cons kv rest ih =>
    rw [setK_cons]
    by_cases hk : kv.1 = k
    · rw [if_pos hk, hasKey_cons, hasKey_cons, hk]
      cases hb : (k == k') <;> simp [hb]
    · rw [if_neg hk, hasKey_cons, hasKey_cons, ih]
      cases hb : (kv.1 == k') <;> cases hb2 : (k == k') <;> simp [hb, hb2]

theorem hasKey_setK_self (m : AList) (k : String) (v : Val) :
    hasKey (setK m k v) k = true := by
  rw [hasKey_setK]; simp

theorem hasKey_setK_of_hasKey (m : AList) (k k' : String) (v : Val)
    (h : hasKey m k' = true) : hasKey (setK m k v) k' = true := by
  rw [hasKey_setK, h]; simp

theorem hasKey_setK_ne (m : AList) (k k' : String) (v : Val) (h : k ≠ k') :
    hasKey (setK m k v) k' = hasKey m k' := by
  rw [hasKey_setK]
  simp [h]

theorem hasKey_eraseK_ne (m : AList) (k k' : String) (h : k' ≠ k) :
    hasKey (eraseK m k) k' = hasKey m k' := by
  induction m with
  | nil => simp [eraseK]
  | cons kv rest ih =>
    rw [eraseK_cons]
    by_cases hk : kv.1 = k
    · rw [if_pos hk, hasKey_cons]
      have : (kv.1 == k') = false := by
        simp only [beq_eq_false_iff_ne, ne_eq]
        intro hh
        exact h (by rw [← hh, hk])
      rw [this]
      simp
    · rw [if_neg hk, hasKey_cons, hasKey_cons, ih]

theorem lookupA_eraseK_ne (m : AList) (k k' : String) (h : k' ≠ k) :
    lookupA (eraseK m k) k' = lookupA m k' := by
  induction m with
  | nil => simp [eraseK]
  | cons kv rest ih =>
    rw [eraseK_cons]
    by_cases hk : kv.1 = k
    · rw [if_pos hk, lookupA_cons]
      rw [if_neg (fun hh : k' = kv.1 => h (by rw [hh, hk]))]
    · rw [if_neg hk, lookupA_cons, lookupA_cons, ih]

theorem mem_setK (m : AList) (k : String) (v : Val) (kv : String × Val)
    (h : kv ∈ setK m k v) : kv = (k, v) ∨ kv ∈ m := by
  induction m with
  | nil =>
    simp [setK] at h
    exact Or.inl h
  | cons kw rest ih =>
    rw [setK_cons] at h
    by_cases hk : kw.1 = k
    · rw [if_pos hk] at h
      rcases List.mem_cons.1 h with h1 | h1
      · exact Or.inl h1
      · exact Or.inr (List.mem_cons.2 (Or.inr h1))
    · rw [if_neg hk] at h
      rcases List.mem_cons.1 h with h1 | h1
      · exact Or.inr (List.mem_cons.2 (Or.inl h1))
      · rcases ih h1 with h2 | h2
        · exact Or.inl h2
        · exact Or.inr (List.mem_cons.2 (Or.inr h2))

theorem mem_eraseK (m : AList) (k : String) (kv : String × Val)
    (h : kv ∈ eraseK m k) : kv ∈ m := by
  induction m with
  | nil => simp [eraseK] at h
  | cons kw rest ih =>
    rw [eraseK_cons] at h
    by_cases hk : kw.1 = k
    · rw [if_pos hk] at h
      exact List.mem_cons.2 (Or.inr h)
    · rw [if_neg hk] at h
      rcases List.mem_cons.1 h with h1 | h1
      · exact List.mem_cons.2 (Or.inl h1)
      · exact List.mem_cons.2 (Or.inr (ih h1))

theorem hasKey_of_mem (m : AList) (kv : String × Val) (h : kv ∈ m) :
    hasKey m kv.1 = true := by
  simp only [hasKey, List.any_eq_true]
  exact ⟨kv, h, by simp⟩

theorem mem_of_lookupA (m : AList) (k : String) (v : Val)
    (h : lookupA m k = some v) : (k, v) ∈ m := by
  induction m with
  | nil => simp [lookupA_nil] at h
  | cons kv rest ih =>
    rw [lookupA_cons] at h
    by_cases hk : k = kv.1
    · rw [if_pos hk] at h
      cases h
      exact List.mem_cons.2 (Or.inl (by rw [hk]))
    · rw [if_neg hk] at h
      exact List.mem_cons.2 (Or.inr (ih h))

end MNotify

namespace MNotify

/-! ### Lexicographic order and `sorted(set(...))` lemmas -/

theorem lexLe_total (as bs : List Char) : lexLe as bs = true ∨ lexLe bs as = true := by
  induction as generalizing bs with
  | nil => exact Or.inl rfl
  | cons a as ih =>
    cases bs with
    | nil => exact Or.inr rfl
    | cons b bs =>
      simp only [lexLe]
      rcases Nat.lt_trichotomy a.toNat b.toNat with h | h | h
      · left; rw [if_pos h]
      · rcases ih bs with h2 | h2
        · left
          rw [if_neg (by omega), if_pos (by simpa using h)]
          exact h2
        · right
          rw [if_neg (by omega), if_pos (by simp [h])]
          exact h2
      · right; rw [if_pos h]

theorem lexLe_trans (as bs cs : List Char) (h1 : lexLe as bs = true)
    (h2 : lexLe bs cs = true) : lexLe as cs = true := by
  induction as generalizing bs cs with
  | nil => rfl
  | cons a as ih =>
    cases bs with
    | nil => simp [lexLe] at h1
    | cons b bs =>
      cases cs with
      | nil => simp [lexLe] at h2
      | cons c cs =>
        simp only [lexLe] at h1 h2 ⊢
        by_cases hab : a.toNat < b.toNat
        · by_cases hbc : b.toNat < c.toNat
          · rw [if_pos (by omega)]
          · rw [if_neg hbc] at h2
            by_cases hbc2 : b.toNat = c.toNat
            · rw [if_pos (by omega)]
            · rw [if_neg (by simpa using hbc2)] at h2
              exact absurd h2 (by simp)
        · rw [if_neg hab] at h1
          by_cases hab2 : a.toNat = b.toNat
          · rw [if_pos (by simpa using hab2)] at h1
            by_cases hbc : b.toNat < c.toNat
            · rw [if_pos (by omega)]
            · rw [if_neg hbc] at h2
              by_cases hbc2 : b.toNat = c.toNat
              · rw [if_pos (by simpa using hbc2)] at h2
                rw [if_neg (by omega), if_pos (by simp; omega)]
                exact ih bs cs h1 h2
              · rw [if_neg (by simpa using hbc2)] at h2
                exact absurd h2 (by simp)
          · rw [if_neg (by simpa using hab2)] at h1
            exact absurd h1 (by simp)

theorem strLeB_total (a b : String) : strLeB a b = true ∨ strLeB b a = true :=
  lexLe_total a.toList b.toList

theorem strLeB_trans (a b c : String) (h1 : strLeB a b = true) (h2 : strLeB b c = true) :
    strLeB a c = true :=
  lexLe_trans a.toList b.toList c.toList h1 h2

instance : IsTotal String (fun a b => strLeB a b = true) :=
  ⟨fun a b => strLeB_total a b⟩

instance : IsTrans String (fun a b => strLeB a b = true) :=
  ⟨fun a b c => strLeB_trans a b c⟩

theorem mem_dedupFirst (l seen : List String) (x : String) :
    x ∈ dedupFirst l seen ↔ x ∈ l ∧ x ∉ seen := by
  induction l generalizing seen with
  | nil => simp [dedupFirst]
  | cons y ys ih =>
    by_cases h : seen.contains y
    · rw [dedupFirst, if_pos h]
      rw [ih]
      constructor
      · rintro ⟨h1, h2⟩
        exact ⟨List.mem_cons.2 (Or.inr h1), h2⟩
      · rintro ⟨h1, h2⟩
        rcases List.mem_cons.1 h1 with h3 | h3
        · subst h3
          exact absurd (by simpa using h) h2
        · exact ⟨h3, h2⟩
    · rw [dedupFirst, if_neg h]
      constructor
      · intro hm
        rcases List.mem_cons.1 hm with h3 | h3
        · subst h3
          exact ⟨List.mem_cons.2 (Or.inl rfl), by simpa using h⟩
        · rcases (ih (y :: seen)).1 h3 with ⟨h4, h5⟩
          exact ⟨List.mem_cons.2 (Or.inr h4), fun hs => h5 (List.mem_cons.2 (Or.inr hs))⟩
      · rintro ⟨h1, h2⟩
        rcases List.mem_cons.1 h1 with h3 | h3
        · subst h3
          exact List.mem_cons.2 (Or.inl rfl)
        · by_cases hx : x = y
          · subst hx
            exact List.mem_cons.2 (Or.inl rfl)
          · refine List.mem_cons.2 (Or.inr ((ih (y :: seen)).2 ⟨h3, ?_⟩))
            intro hm
            rcases List.mem_cons.1 hm with h5 | h5
            · exact hx h5
            · exact h2 h5

theorem nodup_dedupFirst (l seen : List String) : (dedupFirst l seen).Nodup := by
  induction l generalizing seen with
  | nil => simp [dedupFirst]
  | cons y ys ih =>
    by_cases h : seen.contains y
    · rw [dedupFirst, if_pos h]
      exact ih seen
    · rw [dedupFirst, if_neg h]
      refine List.nodup_cons.2 ⟨fun hm => ?_, ih (y :: seen)⟩
      rcases (mem_dedupFirst ys (y :: seen) y).1 hm with ⟨_, h2⟩
      exact h2 (List.mem_cons.2 (Or.inl rfl))

theorem mem_sortedDedup (l : List String) (x : String) :
    x ∈ sortedDedup l ↔ x ∈ l := by
  rw [sortedDedup, List.mem_insertionSort, mem_dedupFirst]
  simp

theorem nodup_sortedDedup (l : List String) : (sortedDedup l).Nodup :=
  ((List.perm_insertionSort _ _).nodup_iff).2 (nodup_dedupFirst l [])

theorem sorted_sortedDedup (l : List String) :
    (sortedDedup l).Sorted (fun a b => strLeB a b = true) :=
  List.sorted_insertionSort _ _

end MNotify

namespace MNotify

/-! ### Wrapper-level lemmas -/

theorem wrapper_of_binding_ok (sig : List (String × String)) (ov : FunctionOverride)
    (m : AList) (bound : AList) (h : bindingOf sig ov m = Except.ok bound) :
    wrapper sig ov m =
      (if (plainMissing ov bound ++ condMissing ov bound).isEmpty then
        match firstLenViolation ov.max_lengths bound with
        | some v => Except.ok (CallResult.errorResult (lenMsg v.1 v.2.1 v.2.2))
        | Option.none => Except.ok (CallResult.invoked bound)
      else
        Except.ok (CallResult.errorResult
          (missingMsg (sortedDedup (plainMissing ov bound ++ condMissing ov bound))))) := by
  unfold wrapper
  rw [h]
  rfl

theorem wrapper_of_binding_err (sig : List (String × String)) (ov : FunctionOverride)
    (m : AList) (e : String) (h : bindingOf sig ov m = Except.error e) :
    wrapper sig ov m = Except.error e := by
  unfold wrapper
  rw [h]
  rfl

theorem mem_plainMissing (ov : FunctionOverride) (b : AList) (r : String) :
    r ∈ plainMissing ov b ↔ r ∈ ov.required ∧ isMissingVal (lookupA b r) = true := by
  simp [plainMissing, List.mem_filter]

theorem wrapper_missing_nonempty (sig : List (String × String)) (ov : FunctionOverride)
    (m : AList) (bound : AList) (h : bindingOf sig ov m = Except.ok bound)
    (hne : plainMissing ov bound ++ condMissing ov bound ≠ []) :
    wrapper sig ov m = Except.ok (CallResult.errorResult
      (missingMsg (sortedDedup (plainMissing ov bound ++ condMissing ov bound)))) := by
  rw [wrapper_of_binding_ok sig ov m bound h]
  rw [if_neg]
  simp [List.isEmpty_iff, hne]

/-- A substring fact stated by explicit decomposition. -/
def SubStr (t s : String) : Prop :=
  ∃ p q, s = p ++ (t ++ q)

/-! ### C1 -/

/-- C1: whenever some field of the override's `required` set is absent or
empty in the fully populated Binding, the wrapper returns a structured
error whose message is the aggregated missing-parameter message over a
deduplicated, lexicographically sorted field list that contains every such
missing required field, and the domain function is not invoked. -/
theorem missing_required_rejected (sig : List (String × String)) (ov : FunctionOverride)
    (m : AList) (bound : AList) (hb : bindingOf sig ov m = Except.ok bound)
    (hmiss : ∃ r ∈ ov.required, isMissingVal (lookupA bound r) = true) :
    ∃ fields,
      wrapper sig ov m = Except.ok (CallResult.errorResult (missingMsg fields)) ∧
      fields = sortedDedup (plainMissing ov bound ++ condMissing ov bound) ∧
      (∀ r ∈ ov.required, isMissingVal (lookupA bound r) = true → r ∈ fields) ∧
      fields.Nodup ∧
      fields.Sorted (fun a b => strLeB a b = true) ∧
      (∀ b2, wrapper sig ov m ≠ Except.ok (CallResult.invoked b2)) := by
  obtain ⟨r0, hr0, hr0m⟩ := hmiss
  have hr0p : r0 ∈ plainMissing ov bound := (mem_plainMissing ov bound r0).2 ⟨hr0, hr0m⟩
  have hne : plainMissing ov bound ++ condMissing ov bound ≠ [] :=
    List.ne_nil_of_mem (List.mem_append_left _ hr0p)
  have hw := wrapper_missing_nonempty sig ov m bound hb hne
  refine ⟨sortedDedup (plainMissing ov bound ++ condMissing ov bound), hw, rfl, ?_, ?_, ?_, ?_⟩
  · intro r hr hrm
    rw [mem_sortedDedup]
    exact List.mem_append_left _ ((mem_plainMissing ov bound r).2 ⟨hr, hrm⟩)
  · exact nodup_sortedDedup _
  · exact sorted_sortedDedup _
  · intro b2 hc
    rw [hw] at hc
    simp at hc

/-- Witness for C1: a concrete call to a wrapper requiring `phone` with no
arguments is rejected with the message naming `phone`. -/
theorem missing_required_rejected_witness :
    ∃ fields,
      wrapper [("phone", "str")] ⟨[], ["phone"], [], [], [], [], []⟩ [] =
        Except.ok (CallResult.errorResult (missingMsg fields)) ∧
      fields = sortedDedup (plainMissing ⟨[], ["phone"], [], [], [], [], []⟩ [] ++
        condMissing ⟨[], ["phone"], [], [], [], [], []⟩ []) ∧
      (∀ r ∈ (⟨[], ["phone"], [], [], [], [], []⟩ : FunctionOverride).required,
        isMissingVal (lookupA [] r) = true → r ∈ fields) ∧
      fields.Nodup ∧
      fields.Sorted (fun a b => strLeB a b = true) ∧
      (∀ b2, wrapper [("phone", "str")] ⟨[], ["phone"], [], [], [], [], []⟩ [] ≠
        Except.ok (CallResult.invoked b2)) :=
  missing_required_rejected [("phone", "str")] ⟨[], ["phone"], [], [], [], [], []⟩ [] []
    rfl ⟨"phone", by simp, rfl⟩

end MNotify

namespace MNotify

/-! ### C2 -/

/-- C2: a `required_if` rule adds its parameter to the missing set exactly
when every `when` condition `==`-matches the current Binding and the
parameter's bound value is missing; missing names from the plain and the
conditional check are reported together in one structured error; and under
the real `send_quick_bulk_sms` rule `{param: schedule_time, when:
{schedule: true}}`, `schedule = false` is accepted without `schedule_time`,
`schedule = true` without it is rejected, and `schedule = true` with a
non-empty `schedule_time` is accepted. -/
theorem conditional_requirements :
    (∀ (ov : FunctionOverride) (b : AList) (p : String),
      p ∈ condMissing ov b ↔
        ∃ rule ∈ ov.required_if, rule.param = p ∧
          (∀ kv ∈ rule.whenConds, pyEq ((lookupA b kv.1).getD Val.none) kv.2 = true) ∧
          isMissingVal (lookupA b rule.param) = true) ∧
    (∀ (sig : List (String × String)) (ov : FunctionOverride) (m bound : AList),
      bindingOf sig ov m = Except.ok bound →
      plainMissing ov bound ++ condMissing ov bound ≠ [] →
      wrapper sig ov m = Except.ok (CallResult.errorResult
        (missingMsg (sortedDedup (plainMissing ov bound ++ condMissing ov bound))))) ∧
    (wrapper sendQuickBulkSmsSig sendQuickBulkSmsOverride
      [("recipient", Val.list [Val.str "+233200000000"]), ("sender_id", Val.str "ACME"),
       ("message", Val.str "Hi"), ("schedule", Val.bool false)] =
      Except.ok (CallResult.invoked
        [("schedule", Val.bool false), ("recipient", Val.list [Val.str "+233200000000"]),
         ("sender_id", Val.str "ACME"), ("message", Val.str "Hi")])) ∧
    (wrapper sendQuickBulkSmsSig sendQuickBulkSmsOverride
      [("recipient", Val.list [Val.str "+233200000000"]), ("sender_id", Val.str "ACME"),
       ("message", Val.str "Hi"), ("schedule", Val.bool true)] =
      Except.ok (CallResult.errorResult "Missing required parameter(s): schedule_time")) ∧
    (wrapper sendQuickBulkSmsSig sendQuickBulkSmsOverride
      [("recipient", Val.list [Val.str "+233200000000"]), ("sender_id", Val.str "ACME"),
       ("message", Val.str "Hi"), ("schedule", Val.bool true),
       ("schedule_time", Val.str "2024-01-01 10:00")] =
      Except.ok (CallResult.invoked
        [("schedule", Val.bool true), ("recipient", Val.list [Val.str "+233200000000"]),
         ("sender_id", Val.str "ACME"), ("message", Val.str "Hi"),
         ("schedule_time", Val.str "2024-01-01 10:00")])) := by
  refine ⟨?_, ?_, rfl, rfl, rfl⟩
  · intro ov b p
    constructor
    · intro hp
      rw [condMissing, List.mem_map] at hp
      obtain ⟨rule, hrule, hparam⟩ := hp
      rw [List.mem_filter] at hrule
      obtain ⟨hmem, hcond⟩ := hrule
      rw [Bool.and_eq_true] at hcond
      refine ⟨rule, hmem, hparam, ?_, hcond.2⟩
      have := hcond.1
      rw [ruleMeets, List.all_eq_true] at this
      exact this
    · rintro ⟨rule, hmem, hparam, hwhen, hmissing⟩
      rw [condMissing, List.mem_map]
      refine ⟨rule, ?_, hparam⟩
      rw [List.mem_filter]
      refine ⟨hmem, ?_⟩
      rw [Bool.and_eq_true]
      refine ⟨?_, hmissing⟩
      rw [ruleMeets, List.all_eq_true]
      exact hwhen
  · intro sig ov m bound hb hne
    exact wrapper_missing_nonempty sig ov m bound hb hne

/-- Witness for C2: the conditional-requirement membership characterization
and the combined-error clause applied to a concrete call that is missing
both a plain required name and a conditionally required name. -/
theorem conditional_requirements_witness :
    ("schedule_time" ∈ condMissing sendQuickBulkSmsOverride [("schedule", Val.bool true)] ↔
      ∃ rule ∈ sendQuickBulkSmsOverride.required_if, rule.param = "schedule_time" ∧
        (∀ kv ∈ rule.whenConds,
          pyEq ((lookupA [("schedule", Val.bool true)] kv.1).getD Val.none) kv.2 = true) ∧
        isMissingVal (lookupA [("schedule", Val.bool true)] rule.param) = true) ∧
    wrapper sendQuickBulkSmsSig sendQuickBulkSmsOverride [("schedule", Val.bool true)] =
      Except.ok (CallResult.errorResult
        (missingMsg (sortedDedup
          (plainMissing sendQuickBulkSmsOverride [("schedule", Val.bool true)] ++
           condMissing sendQuickBulkSmsOverride [("schedule", Val.bool true)])))) :=
  ⟨conditional_requirements.1 sendQuickBulkSmsOverride [("schedule", Val.bool true)]
      "schedule_time",
   conditional_requirements.2.1 sendQuickBulkSmsSig sendQuickBulkSmsOverride
      [("schedule", Val.bool true)] [("schedule", Val.bool true)] rfl (by decide)⟩

end MNotify

namespace MNotify

/-! ### C3 -/

theorem substr_lenMsg_field (f : String) (n lim : Nat) : SubStr f (lenMsg f n lim) := by
  refine ⟨"", " is too long (" ++ (toString n ++ (" characters). Maximum allowed is " ++
    (toString lim ++ ". Please shorten it and try again."))), ?_⟩
  apply String.ext
  simp [lenMsg, String.data_append]

theorem substr_lenMsg_actual (f : String) (n lim : Nat) : SubStr (toString n) (lenMsg f n lim) := by
  refine ⟨f ++ " is too long (", " characters). Maximum allowed is " ++
    (toString lim ++ ". Please shorten it and try again."), ?_⟩
  apply String.ext
  simp [lenMsg, String.data_append]

theorem substr_lenMsg_limit (f : String) (n lim : Nat) : SubStr (toString lim) (lenMsg f n lim) := by
  refine ⟨f ++ " is too long (" ++ toString n ++ " characters). Maximum allowed is ",
    ". Please shorten it and try again.", ?_⟩
  apply String.ext
  simp [lenMsg, String.data_append]

/-- C3: once the required checks pass, the wrapper rejects exactly when some
`max_lengths` field is bound to a string strictly over its limit; the first
violation is reported with an error message containing the field name, the
actual length and the limit, and the domain function is not invoked; when
the required checks fail it is the missing-parameter error that is
reported; a 460-character `message` passes the real `send_quick_bulk_sms`
override while a 461-character one is rejected with a message containing
both 461 and 460. -/
theorem max_length_check :
    (∀ (sig : List (String × String)) (ov : FunctionOverride) (m bound : AList),
      bindingOf sig ov m = Except.ok bound →
      plainMissing ov bound ++ condMissing ov bound = [] →
      ((firstLenViolation ov.max_lengths bound = Option.none ∧
        wrapper sig ov m = Except.ok (CallResult.invoked bound) ∧
        (∀ p ∈ ov.max_lengths, ∀ s, lookupA bound p.1 = some (Val.str s) →
          s.length ≤ p.2)) ∨
       (∃ f n lim,
        firstLenViolation ov.max_lengths bound = some (f, n, lim) ∧
        wrapper sig ov m = Except.ok (CallResult.errorResult (lenMsg f n lim)) ∧
        (∀ b2, wrapper sig ov m ≠ Except.ok (CallResult.invoked b2)) ∧
        (f, lim) ∈ ov.max_lengths ∧
        (∃ s, lookupA bound f = some (Val.str s) ∧ s.length = n ∧ n > lim) ∧
        SubStr f (lenMsg f n lim) ∧ SubStr (toString n) (lenMsg f n lim) ∧
        SubStr (toString lim) (lenMsg f n lim)))) ∧
    (∀ (sig : List (String × String)) (ov : FunctionOverride) (m bound : AList),
      bindingOf sig ov m = Except.ok bound →
      plainMissing ov bound ++ condMissing ov bound ≠ [] →
      wrapper sig ov m = Except.ok (CallResult.errorResult
        (missingMsg (sortedDedup (plainMissing ov bound ++ condMissing ov bound))))) ∧
    (wrapper sendQuickBulkSmsSig sendQuickBulkSmsOverride
      [("recipient", Val.list [Val.str "+233200000000"]), ("sender_id", Val.str "ACME"),
       ("message", Val.str (String.mk (List.replicate 460 'a')))] =
      Except.ok (CallResult.invoked
        [("schedule", Val.bool false), ("recipient", Val.list [Val.str "+233200000000"]),
         ("sender_id", Val.str "ACME"),
         ("message", Val.str (String.mk (List.replicate 460 'a')))])) ∧
    (wrapper sendQuickBulkSmsSig sendQuickBulkSmsOverride
      [("recipient", Val.list [Val.str "+233200000000"]), ("sender_id", Val.str "ACME"),
       ("message", Val.str (String.mk (List.replicate 461 'a')))] =
      Except.ok (CallResult.errorResult (lenMsg "message" 461 460)) ∧
      SubStr (toString 461) (lenMsg "message" 461 460) ∧
      SubStr (toString 460) (lenMsg "message" 461 460)) := by
  refine ⟨?_, ?_, ?_, ?_, ?_, ?_⟩
  · intro sig ov m bound hb hempty
    have hw := wrapper_of_binding_ok sig ov m bound hb
    rw [if_pos (by simp [hempty])] at hw
    cases hv : firstLenViolation ov.max_lengths bound with
    | none =>
      left
      rw [hv] at hw
      refine ⟨rfl, hw, ?_⟩
      intro p hp s hs
      have hall := List.findSome?_eq_none_iff.1 hv p hp
      rw [hs] at hall
      dsimp only at hall
      by_cases hlen : s.length > p.2
      · rw [if_pos hlen] at hall
        exact absurd hall (by simp)
      · omega
    | some v =>
      right
      rw [hv] at hw
      obtain ⟨p, hpmem, hfp⟩ := List.exists_of_findSome?_eq_some hv
      cases hl : lookupA bound p.1 with
      | none => rw [hl] at hfp; simp at hfp
      | some w =>
        cases w with
        | str s =>
          rw [hl] at hfp
          dsimp only at hfp
          by_cases hlen : s.length > p.2
          · rw [if_pos hlen] at hfp
            simp only [Option.some.injEq] at hfp
            subst hfp
            dsimp only at hw
            refine ⟨p.1, s.length, p.2, rfl, hw, ?_, ?_, ⟨s, hl, rfl, hlen⟩,
              substr_lenMsg_field _ _ _, substr_lenMsg_actual _ _ _, substr_lenMsg_limit _ _ _⟩
            · intro b2 hc
              rw [hw] at hc
              simp at hc
            · have hpp : p = (p.1, p.2) := rfl
              rw [hpp] at hpmem
              exact hpmem
          · rw [if_neg hlen] at hfp
            simp at hfp
        | none => rw [hl] at hfp; simp at hfp
        | bool b => rw [hl] at hfp; simp at hfp
        | int n => rw [hl] at hfp; simp at hfp
        | float q => rw [hl] at hfp; simp at hfp
        | list xs => rw [hl] at hfp; simp at hfp
        | dict xs => rw [hl] at hfp; simp at hfp
  · intro sig ov m bound hb hne
    exact wrapper_missing_nonempty sig ov m bound hb hne
  · set_option maxRecDepth 60000 in rfl
  · set_option maxRecDepth 60000 in rfl
  · exact substr_lenMsg_actual "message" 461 460
  · exact substr_lenMsg_limit "message" 461 460

/-- Witness for C3: the dichotomy applied to a concrete call whose
`message` exceeds the configured limit 5, reporting the violation. -/
theorem max_length_check_witness :
    (firstLenViolation [("message", 5)] [("message", Val.str "toolong")] = Option.none ∧
      wrapper [("message", "str")] ⟨[], [], [], [], [], [], [("message", 5)]⟩
        [("message", Val.str "toolong")] =
        Except.ok (CallResult.invoked [("message", Val.str "toolong")]) ∧
      (∀ p ∈ [("message", 5)], ∀ s,
        lookupA [("message", Val.str "toolong")] p.1 = some (Val.str s) →
          s.length ≤ p.2)) ∨
    (∃ f n lim,
      firstLenViolation [("message", 5)] [("message", Val.str "toolong")] = some (f, n, lim) ∧
      wrapper [("message", "str")] ⟨[], [], [], [], [], [], [("message", 5)]⟩
        [("message", Val.str "toolong")] =
        Except.ok (CallResult.errorResult (lenMsg f n lim)) ∧
      (∀ b2, wrapper [("message", "str")] ⟨[], [], [], [], [], [], [("message", 5)]⟩
        [("message", Val.str "toolong")] ≠ Except.ok (CallResult.invoked b2)) ∧
      (f, lim) ∈ [("message", 5)] ∧
      (∃ s, lookupA [("message", Val.str "toolong")] f = some (Val.str s) ∧
        s.length = n ∧ n > lim) ∧
      SubStr f (lenMsg f n lim) ∧ SubStr (toString n) (lenMsg f n lim) ∧
      SubStr (toString lim) (lenMsg f n lim)) :=
  max_length_check.1 [("message", "str")] ⟨[], [], [], [], [], [], [("message", 5)]⟩
    [("message", Val.str "toolong")] [("message", Val.str "toolong")] rfl rfl

end MNotify

namespace MNotify

/-! ### C4 -/

/-- C4: validation failures are returned as data while coercion faults
propagate: once binding construction succeeds the wrapper always returns
`Except.ok` (missing-parameter and length violations come back as
`{error: ...}` values), whereas a coercion fault during binding
construction propagates out of the wrapper unchanged; coercing a
non-numeric string at integer or float kind is such a fault, as the
concrete `"abc"` calls show. -/
theorem validation_as_data_coercion_raises :
    (∀ (sig : List (String × String)) (ov : FunctionOverride) (m : AList) (e : String),
      bindingOf sig ov m = Except.error e → wrapper sig ov m = Except.error e) ∧
    (∀ (sig : List (String × String)) (ov : FunctionOverride) (m bound : AList),
      bindingOf sig ov m = Except.ok bound → ∃ r, wrapper sig ov m = Except.ok r) ∧
    (∀ (sig : List (String × String)) (ov : FunctionOverride) (m bound : AList),
      bindingOf sig ov m = Except.ok bound →
      plainMissing ov bound ++ condMissing ov bound ≠ [] →
      wrapper sig ov m = Except.ok (CallResult.errorResult
        (missingMsg (sortedDedup (plainMissing ov bound ++ condMissing ov bound))))) ∧
    (∀ (sig : List (String × String)) (ov : FunctionOverride) (m bound : AList)
      (f : String) (n lim : Nat),
      bindingOf sig ov m = Except.ok bound →
      plainMissing ov bound ++ condMissing ov bound = [] →
      firstLenViolation ov.max_lengths bound = some (f, n, lim) →
      wrapper sig ov m = Except.ok (CallResult.errorResult (lenMsg f n lim))) ∧
    (∀ s : String, parsePyInt (pyStrip s) = Option.none →
      ∃ e, toIntCoerce (Val.str s) = Except.error e) ∧
    (∀ s : String, parsePyFloat (pyStrip s) = Option.none →
      ∃ e, toFloatCoerce (Val.str s) = Except.error e) ∧
    (wrapper [("n", "int")] ⟨[], [], [], [], [], [], []⟩ [("n", Val.str "abc")] =
      Except.error "invalid literal for int(): abc") ∧
    (wrapper [("x", "float")] ⟨[], [], [], [], [], [], []⟩ [("x", Val.str "abc")] =
      Except.error "could not convert string to float: abc") := by
  refine ⟨?_, ?_, ?_, ?_, ?_, ?_, rfl, rfl⟩
  · intro sig ov m e h
    exact wrapper_of_binding_err sig ov m e h
  · intro sig ov m bound hb
    rw [wrapper_of_binding_ok sig ov m bound hb]
    by_cases hne : (plainMissing ov bound ++ condMissing ov bound).isEmpty = true
    · rw [if_pos hne]
      cases hv : firstLenViolation ov.max_lengths bound with
      | none => exact ⟨CallResult.invoked bound, rfl⟩
      | some v => exact ⟨CallResult.errorResult (lenMsg v.1 v.2.1 v.2.2), rfl⟩
    · rw [if_neg hne]
      exact ⟨_, rfl⟩
  · intro sig ov m bound hb hne
    exact wrapper_missing_nonempty sig ov m bound hb hne
  · intro sig ov m bound f n lim hb hempty hv
    rw [wrapper_of_binding_ok sig ov m bound hb, if_pos (by simp [hempty]), hv]
  · intro s h
    refine ⟨"invalid literal for int(): " ++ pyStr (Val.str s), ?_⟩
    simp only [toIntCoerce, pyStr] at h ⊢
    rw [h]
  · intro s h
    refine ⟨"could not convert string to float: " ++ pyStr (Val.str s), ?_⟩
    simp only [toFloatCoerce, pyStr] at h ⊢
    rw [h]

/-- Witness for C4: the propagation clause applied to the concrete faulting
call, and the missing-parameter clause applied to a concrete call whose
validation failure is returned as data. -/
theorem validation_as_data_coercion_raises_witness :
    wrapper [("n", "int")] ⟨[], [], [], [], [], [], []⟩ [("n", Val.str "7q")] =
      Except.error "invalid literal for int(): 7q" ∧
    wrapper [] ⟨[], ["phone"], [], [], [], [], []⟩ [] =
      Except.ok (CallResult.errorResult
        (missingMsg (sortedDedup (plainMissing ⟨[], ["phone"], [], [], [], [], []⟩ [] ++
          condMissing ⟨[], ["phone"], [], [], [], [], []⟩ [])))) :=
  ⟨validation_as_data_coercion_raises.1 [("n", "int")] ⟨[], [], [], [], [], [], []⟩
      [("n", Val.str "7q")] "invalid literal for int(): 7q" rfl,
   validation_as_data_coercion_raises.2.2.1 [] ⟨[], ["phone"], [], [], [], [], []⟩ [] []
      rfl (by decide)⟩

/-! ### C5 -/

/-- C5 counterexample: the unwrap is applied only once, so invoking with
`{kwargs: m}` where `m` is itself the single-entry mapping
`{kwargs: {}}` invokes the domain function on `{kwargs: {}}`, while
invoking with `m` directly unwraps again and invokes it on `{}` — the two
results differ, refuting the claim for this `m`. -/
theorem envelope_unwrap_cex :
    wrapper [] ⟨[], [], [], [], [], [], []⟩
      [("kwargs", Val.dict [("kwargs", Val.dict [])])] =
      Except.ok (CallResult.invoked [("kwargs", Val.dict [])]) ∧
    wrapper [] ⟨[], [], [], [], [], [], []⟩ [("kwargs", Val.dict [])] =
      Except.ok (CallResult.invoked []) ∧
    ([("kwargs", Val.dict [])] : AList) ≠ [] :=
  ⟨rfl, rfl, by simp⟩

/-- C5 (amended): invoking a wrapper with `{kwargs: m}` for a mapping `m`
is identical to invoking it with `m` directly provided `m` is not itself
subject to the unwrap (the unwrap happens only once); a mapping with more
than one entry, a single entry under a key other than `kwargs`, or a
`kwargs` entry whose value is not a mapping is never unwrapped. -/
theorem envelope_unwrap_once :
    (∀ (sig : List (String × String)) (ov : FunctionOverride) (inner : AList),
      unwrapEnvelope inner = inner →
      wrapper sig ov [("kwargs", Val.dict inner)] = wrapper sig ov inner) ∧
    (∀ m : AList, 2 ≤ m.length → unwrapEnvelope m = m) ∧
    (∀ (k : String) (v : Val), (∀ xs, v ≠ Val.dict xs) →
      unwrapEnvelope [(k, v)] = [(k, v)]) ∧
    (∀ (k : String) (xs : List (String × Val)), k ≠ "kwargs" →
      unwrapEnvelope [(k, Val.dict xs)] = [(k, Val.dict xs)]) := by
  refine ⟨?_, ?_, ?_, ?_⟩
  · intro sig ov inner h
    unfold wrapper bindingOf
    have h1 : unwrapEnvelope [("kwargs", Val.dict inner)] = inner := by
      simp [unwrapEnvelope]
    rw [h1, h]
  · intro m hm
    match m, hm with
    | (k, v) :: b :: t, _ => cases v <;> rfl
  · intro k v hv
    cases v with
    | dict xs => exact absurd rfl (hv xs)
    | none => rfl
    | str s => rfl
    | bool b => rfl
    | int n => rfl
    | float q => rfl
    | list xs => rfl
  · intro k xs hk
    simp [unwrapEnvelope, hk]

/-- Witness for C5: the amended equivalence applied to the spec's own
example `{kwargs: {a: 1}}`. -/
theorem envelope_unwrap_once_witness :
    wrapper [] ⟨[], [], [], [], [], [], []⟩ [("kwargs", Val.dict [("a", Val.int 1)])] =
      wrapper [] ⟨[], [], [], [], [], [], []⟩ [("a", Val.int 1)] :=
  envelope_unwrap_once.1 [] ⟨[], [], [], [], [], [], []⟩ [("a", Val.int 1)] rfl

end MNotify

namespace MNotify

/-! ### Normalizer transfer lemmas -/

/-- The canonical keys the key-rewrite loop can introduce. -/
def canonTargets : List String :=
  ["phone", "group_id", "contact_id", "template_id", "campaign_id"]

theorem hasKey_eq_isSome (m : AList) (k : String) :
    hasKey m k = (lookupA m k).isSome := by
  cases hl : lookupA m k with
  | none =>
    cases hk : hasKey m k with
    | false => rfl
    | true =>
      obtain ⟨v, hv⟩ := (hasKey_iff_lookupA m k).1 hk
      rw [hv] at hl
      exact absurd hl (by simp)
  | some v =>
    rw [(hasKey_iff_lookupA m k).2 ⟨v, hl⟩]
    rfl

theorem canonOf_self_or_target (k : String) :
    canonOf k = k ∨ canonOf k ∈ canonTargets := by
  unfold canonOf
  split_ifs <;> simp [canonTargets]

theorem canonOf_ne_imp_target (k : String) (h : canonOf k ≠ k) :
    canonOf k ∈ canonTargets := by
  rcases canonOf_self_or_target k with h1 | h1
  · exact absurd h1 h
  · exact h1

theorem mem_foldl_rwStep (m : AList) (l : List (String × Val)) (acc : AList)
    (p : String × Val) (hp : p ∈ l.foldl (rwStep m) acc) :
    p ∈ acc ∨ ∃ kv ∈ l, p.1 = canonOf kv.1 ∧ hasKey m (canonOf kv.1) = false := by
  induction l generalizing acc with
  | nil => exact Or.inl hp
  | cons kv rest ih =>
    rw [List.foldl_cons] at hp
    rcases ih (rwStep m acc kv) hp with h1 | h1
    · unfold rwStep at h1
      by_cases hc : hasKey m (canonOf kv.1) = true
      · rw [if_pos (by simpa using hc)] at h1
        exact Or.inl h1
      · rw [if_neg (by simpa using hc)] at h1
        rcases mem_setK acc (canonOf kv.1) kv.2 p h1 with h2 | h2
        · refine Or.inr ⟨kv, List.mem_cons.2 (Or.inl rfl), ?_, by simpa using hc⟩
          rw [h2]
        · exact Or.inl h2
    · obtain ⟨kw, hkw, h2, h3⟩ := h1
      exact Or.inr ⟨kw, List.mem_cons.2 (Or.inr hkw), h2, h3⟩

theorem mem_rewriteAux (m : AList) (p : String × Val) (hp : p ∈ rewriteAux m) :
    p.1 ∈ canonTargets := by
  rcases mem_foldl_rwStep m m [] p hp with h1 | h1
  · exact absurd h1 (by simp)
  · obtain ⟨kv, hkv, h2, h3⟩ := h1
    have hself : hasKey m kv.1 = true := hasKey_of_mem m kv hkv
    have hne : canonOf kv.1 ≠ kv.1 := by
      intro he
      rw [he, hself] at h3
      exact absurd h3 (by simp)
    rw [h2]
    exact canonOf_ne_imp_target kv.1 hne

theorem lookupA_updateA_of_not_key (m n : AList) (k : String)
    (h : ∀ p ∈ n, p.1 ≠ k) : lookupA (updateA m n) k = lookupA m k := by
  induction n generalizing m with
  | nil => rfl
  | cons p rest ih =>
    rw [updateA, List.foldl_cons]
    have h1 : lookupA (setK m p.1 p.2) k = lookupA m k :=
      lookupA_setK_ne m p.1 k p.2 (fun he => h p (List.mem_cons.2 (Or.inl rfl)) he.symm)
    rw [← h1]
    exact ih (setK m p.1 p.2) (fun q hq => h q (List.mem_cons.2 (Or.inr hq)))

theorem hasKey_updateA_left (m n : AList) (k : String) (h : hasKey m k = true) :
    hasKey (updateA m n) k = true := by
  induction n generalizing m with
  | nil => exact h
  | cons p rest ih =>
    rw [updateA, List.foldl_cons]
    exact ih (setK m p.1 p.2) (hasKey_setK_of_hasKey m p.1 k p.2 h)

theorem rw_lookup_pres (m : AList) (k : String) (hk : k ∉ canonTargets) :
    lookupA (rewriteKeys m) k = lookupA m k := by
  unfold rewriteKeys
  apply lookupA_updateA_of_not_key
  intro p hp he
  exact hk (he ▸ mem_rewriteAux m p hp)

theorem rw_hasKey_pres (m : AList) (k : String) (hk : k ∉ canonTargets) :
    hasKey (rewriteKeys m) k = hasKey m k := by
  rw [hasKey_eq_isSome, hasKey_eq_isSome, rw_lookup_pres m k hk]

theorem split_lookup_pres (m : AList) (k : String) (h1 : k ≠ "first_name")
    (h2 : k ≠ "last_name") : lookupA (splitName m) k = lookupA m k := by
  unfold splitName
  cases hfv : fvOf m with
  | none => rfl
  | some v =>
    dsimp only
    by_cases hc : (pyTruthy v && (!hasKey m "first_name" && !hasKey m "last_name")) = true
    · rw [if_pos hc]
      cases hw : nameParts v with
      | nil => rfl
      | cons p rest =>
        cases rest with
        | nil => exact lookupA_setK_ne m "first_name" k (Val.str p) h1
        | cons q rest2 =>
          rw [lookupA_setK_ne _ "last_name" k _ h2,
            lookupA_setK_ne m "first_name" k _ h1]
    · rw [if_neg hc]

theorem fold_lookup_pres (m : AList) (k : String) (h : k ≠ "phone") :
    lookupA (foldContacts m) k = lookupA m k := by
  unfold foldContacts
  by_cases hc : (hasKey m "contacts" && !hasKey m "phone") = true
  · rw [if_pos hc]
    cases hl : lookupA m "contacts" with
    | none => rfl
    | some v =>
      cases v with
      | list xs =>
        dsimp only
        by_cases he : xs.isEmpty = true
        · rw [if_pos he]
        · rw [if_neg he]
          cases hf : firstNonEmpty xs with
          | none => rfl
          | some s => exact lookupA_setK_ne m "phone" k (Val.str s) h
      | none => rfl
      | str s => rfl
      | bool b => rfl
      | int n => rfl
      | float q => rfl
      | dict xs => rfl
  · rw [if_neg hc]

end MNotify

namespace MNotify

/-! ### C6 -/

/-- C6: when the input mapping holds a string under `full_name` (or, with
`full_name` absent, under `name`) and neither `first_name` nor `last_name`
is present, the Normalizer splits the trimmed value on whitespace: zero
tokens produce no expansion, one token sets only `first_name`, and two or
more tokens set `first_name` to all but the last token joined by single
spaces and `last_name` to the last token. -/
theorem name_splitting (m : AList) (s : String)
    (hfv : lookupA m "full_name" = some (Val.str s) ∨
      (hasKey m "full_name" = false ∧ lookupA m "name" = some (Val.str s)))
    (hf : hasKey m "first_name" = false) (hl : hasKey m "last_name" = false) :
    (pyWords (pyStrip s) = [] →
      lookupA (normalize m) "first_name" = Option.none ∧
      lookupA (normalize m) "last_name" = Option.none) ∧
    (∀ p, pyWords (pyStrip s) = [p] →
      lookupA (normalize m) "first_name" = some (Val.str p) ∧
      lookupA (normalize m) "last_name" = Option.none) ∧
    (∀ p q rest, pyWords (pyStrip s) = p :: q :: rest →
      lookupA (normalize m) "first_name" =
        some (Val.str (String.intercalate " " (p :: q :: rest).dropLast)) ∧
      lookupA (normalize m) "last_name" =
        some (Val.str ((p :: q :: rest).getLast (List.cons_ne_nil p (q :: rest))))) := by
  have hzf : hasKey (rewriteKeys m) "first_name" = false := by
    rw [rw_hasKey_pres m "first_name" (by decide)]
    exact hf
  have hzl : hasKey (rewriteKeys m) "last_name" = false := by
    rw [rw_hasKey_pres m "last_name" (by decide)]
    exact hl
  have hz_fv : fvOf (rewriteKeys m) = some (Val.str s) := by
    rcases hfv with h | ⟨hno, hn⟩
    · have hk : hasKey (rewriteKeys m) "full_name" = true := by
        rw [rw_hasKey_pres m "full_name" (by decide), hasKey_eq_isSome, h]
        rfl
      rw [fvOf, if_pos hk, rw_lookup_pres m "full_name" (by decide)]
      exact h
    · have hk : hasKey (rewriteKeys m) "full_name" = false := by
        rw [rw_hasKey_pres m "full_name" (by decide)]
        exact hno
      have hk2 : hasKey (rewriteKeys m) "name" = true := by
        rw [rw_hasKey_pres m "name" (by decide), hasKey_eq_isSome, hn]
        rfl
      rw [fvOf, if_neg (by simp [hk]), if_pos hk2, rw_lookup_pres m "name" (by decide)]
      exact hn
  have hparts : nameParts (Val.str s) = pyWords (pyStrip s) := rfl
  refine ⟨?_, ?_, ?_⟩
  · intro hw
    have hsplit : splitName (rewriteKeys m) = rewriteKeys m := by
      unfold splitName
      rw [hz_fv]
      dsimp only
      by_cases hs : s = ""
      · rw [if_neg]
        subst hs
        simp [pyTruthy]
      · rw [if_pos (by simp [pyTruthy, hs, hzf, hzl]), hparts, hw]
    have h1 : lookupA (normalize m) "first_name" =
        lookupA (rewriteKeys m) "first_name" := by
      rw [normalize, fold_lookup_pres _ _ (by decide), hsplit]
    have h2 : lookupA (normalize m) "last_name" =
        lookupA (rewriteKeys m) "last_name" := by
      rw [normalize, fold_lookup_pres _ _ (by decide), hsplit]
    exact ⟨by rw [h1]; exact hasKey_false_lookupA _ _ hzf,
           by rw [h2]; exact hasKey_false_lookupA _ _ hzl⟩
  · intro p hw
    have hs : s ≠ "" := by
      intro he
      rw [he] at hw
      have h0 : pyWords (pyStrip "") = ([] : List String) := rfl
      rw [h0] at hw
      simp at hw
    have hsplit : splitName (rewriteKeys m) =
        setK (rewriteKeys m) "first_name" (Val.str p) := by
      unfold splitName
      rw [hz_fv]
      dsimp only
      rw [if_pos (by simp [pyTruthy, hs, hzf, hzl]), hparts, hw]
    constructor
    · rw [normalize, fold_lookup_pres _ _ (by decide), hsplit]
      exact lookupA_setK_self _ _ _
    · rw [normalize, fold_lookup_pres _ _ (by decide), hsplit,
        lookupA_setK_ne _ _ _ _ (by decide)]
      exact hasKey_false_lookupA _ _ hzl
  · intro p q rest hw
    have hs : s ≠ "" := by
      intro he
      rw [he] at hw
      have h0 : pyWords (pyStrip "") = ([] : List String) := rfl
      rw [h0] at hw
      simp at hw
    have hsplit : splitName (rewriteKeys m) =
        setK (setK (rewriteKeys m) "first_name"
            (Val.str (String.intercalate " " (p :: q :: rest).dropLast)))
          "last_name" (Val.str ((p :: q :: rest).getLast (List.cons_ne_nil p (q :: rest)))) := by
      unfold splitName
      rw [hz_fv]
      dsimp only
      rw [if_pos (by simp [pyTruthy, hs, hzf, hzl]), hparts, hw]
    constructor
    · rw [normalize, fold_lookup_pres _ _ (by decide), hsplit,
        lookupA_setK_ne _ _ _ _ (by decide)]
      exact lookupA_setK_self _ _ _
    · rw [normalize, fold_lookup_pres _ _ (by decide), hsplit]
      exact lookupA_setK_self _ _ _

/-- Witness for C6: the spec's two examples, `{full_name: "John"}` and
`{full_name: "John Paul Smith"}`. -/
theorem name_splitting_witness :
    (lookupA (normalize [("full_name", Val.str "John")]) "first_name" =
        some (Val.str "John") ∧
      lookupA (normalize [("full_name", Val.str "John")]) "last_name" = Option.none) ∧
    (lookupA (normalize [("full_name", Val.str "John Paul Smith")]) "first_name" =
        some (Val.str "John Paul") ∧
      lookupA (normalize [("full_name", Val.str "John Paul Smith")]) "last_name" =
        some (Val.str "Smith")) :=
  ⟨(name_splitting [("full_name", Val.str "John")] "John" (Or.inl rfl) rfl rfl).2.1
      "John" rfl,
   (name_splitting [("full_name", Val.str "John Paul Smith")] "John Paul Smith"
      (Or.inl rfl) rfl rfl).2.2 "John" "Paul" ["Smith"] rfl⟩

end MNotify

namespace MNotify

/-! ### C7 -/

theorem pyStrip_eq_rdropWhile (s : String) :
    pyStrip s = String.mk (List.rdropWhile isPyWs (s.toList.dropWhile isPyWs)) := by
  simp [pyStrip, List.rdropWhile]

theorem dropWhile_rdropWhile_dropWhile (p : Char → Bool) (l : List Char) :
    List.dropWhile p (List.rdropWhile p (List.dropWhile p l)) =
      List.rdropWhile p (List.dropWhile p l) := by
  cases hR : List.rdropWhile p (List.dropWhile p l) with
  | nil => rfl
  | cons c t =>
    have hpre : (c :: t) <+: List.dropWhile p l := hR ▸ List.rdropWhile_prefix p _
    obtain ⟨r, hr⟩ := hpre
    have hA : List.dropWhile p l = c :: (t ++ r) := by rw [← hr]; rfl
    have hne : List.dropWhile p l ≠ [] := by rw [hA]; simp
    have hhead := List.head_dropWhile_not p l hne
    have hch : ((List.dropWhile p l).head hne) = c := by
      rw [List.head_eq_iff_head?_eq_some, hA]
      rfl
    rw [hch] at hhead
    simp [List.dropWhile_cons, hhead]

theorem pyStrip_idem (s : String) : pyStrip (pyStrip s) = pyStrip s := by
  rw [pyStrip_eq_rdropWhile s, pyStrip_eq_rdropWhile]
  have ht : (String.mk (List.rdropWhile isPyWs (s.toList.dropWhile isPyWs))).toList =
      List.rdropWhile isPyWs (s.toList.dropWhile isPyWs) := rfl
  rw [ht, dropWhile_rdropWhile_dropWhile, List.rdropWhile_idempotent]

theorem scalar_pieces_eq (ps : List String) :
    (ps.map pyStrip).filterMap
      (fun p => if pyStrip p == "" then Option.none else some (stripQuotes (pyStrip p))) =
    ((ps.map pyStrip).filter (fun t => !(t == ""))).map stripQuotes := by
  induction ps with
  | nil => rfl
  | cons x rest ih =>
    simp only [List.map_cons, List.filterMap_cons, List.filter_cons]
    rw [pyStrip_idem]
    by_cases h : pyStrip x = ""
    · simp only [h]
      simpa using ih
    · have hb : (pyStrip x == "") = false := beq_eq_false_iff_ne.mpr h
      simp only [hb]
      rw [ih]
      simp

theorem list_elems_eq (xs : List Val) :
    xs.filterMap (fun x =>
      if pyStrip (pyStr x) == "" then Option.none
      else some (stripQuotes (pyStrip (pyStr x)))) =
    ((xs.map (fun x => pyStrip (pyStr x))).filter (fun t => !(t == ""))).map stripQuotes := by
  induction xs with
  | nil => rfl
  | cons x rest ih =>
    simp only [List.map_cons, List.filterMap_cons, List.filter_cons]
    by_cases h : pyStrip (pyStr x) = ""
    · simp only [h]
      simpa using ih
    · have hb : (pyStrip (pyStr x) == "") = false := beq_eq_false_iff_ne.mpr h
      simp only [hb]
      rw [ih]
      simp

/-- C7 counterexample: string-list coercion tests emptiness before quote
stripping, so an element consisting solely of quote characters yields an
empty string that is kept — the output of `_to_str_list` on `"''"` (and on
the native list `['""']`) contains an empty element, refuting the claim
that empty elements are dropped. -/
theorem str_list_coercion_cex :
    toStrListCoerce (Val.str "''") = [""] ∧
    "" ∈ toStrListCoerce (Val.str "''") ∧
    toStrListCoerce (Val.list [Val.str "\"\""]) = [""] :=
  ⟨rfl, by rw [show toStrListCoerce (Val.str "''") = [""] from rfl]; simp, rfl⟩

/-- The spec's description of string-list coercion, amended: elements (or
comma-separated pieces) are stringified and trimmed, those blank before
quote-stripping are dropped, and the kept ones have leading and trailing
quote characters stripped (possibly becoming empty). -/
def specListCoercion : Val → List String
  | Val.none => []
  | Val.list xs =>
      ((xs.map (fun x => pyStrip (pyStr x))).filter (fun t => !(t == ""))).map stripQuotes
  | v =>
      let raw := pyStrip (pyStr v)
      let cs := raw.toList
      let raw :=
        if (cs.head? == some '[') && (cs.getLast? == some ']') then
          String.mk (cs.drop 1).dropLast
        else raw
      (((pySplitComma raw).map pyStrip).filter (fun t => !(t == ""))).map stripQuotes

/-- C7 (amended): `_to_str_list` coincides with the amended specification
(drop the elements that are blank after trimming, before quote-stripping),
and the claim's three examples evaluate as stated. -/
theorem str_list_coercion :
    (∀ v, toStrListCoerce v = specListCoercion v) ∧
    toStrListCoerce (Val.str "a, b, c") = ["a", "b", "c"] ∧
    toStrListCoerce (Val.list [Val.str "a", Val.str " b "]) = ["a", "b"] ∧
    toStrListCoerce (Val.str "[a, b]") = ["a", "b"] := by
  refine ⟨?_, rfl, rfl, rfl⟩
  intro v
  cases v with
  | none => rfl
  | list xs =>
    show xs.filterMap _ = _
    exact list_elems_eq xs
  | str s =>
    show ((pySplitComma _).map pyStrip).filterMap _ = _
    exact scalar_pieces_eq _
  | bool b =>
    show ((pySplitComma _).map pyStrip).filterMap _ = _
    exact scalar_pieces_eq _
  | int n =>
    show ((pySplitComma _).map pyStrip).filterMap _ = _
    exact scalar_pieces_eq _
  | float q =>
    show ((pySplitComma _).map pyStrip).filterMap _ = _
    exact scalar_pieces_eq _
  | dict xs =>
    show ((pySplitComma _).map pyStrip).filterMap _ = _
    exact scalar_pieces_eq _

end MNotify

namespace MNotify

/-! ### C8 -/

theorem bindParams_nil (ov : FunctionOverride) (m b : AList) :
    bindParams [] ov m b = Except.ok b := rfl

theorem bindParams_cons (p : String × String) (sig : List (String × String))
    (ov : FunctionOverride) (m b : AList) :
    bindParams (p :: sig) ov m b =
      (match lookupA m p.1 with
       | some v =>
          (coerceValue (resolveExpected ov p.2 p.1) v).bind
            (fun c => bindParams sig ov m (setK b p.1 c))
       | Option.none => bindParams sig ov m b) := by
  cases hl : lookupA m p.1 with
  | none =>
    simp only [bindParams, List.foldlM_cons, hl]
    rfl
  | some v =>
    simp only [bindParams, List.foldlM_cons, hl]
    cases hc : coerceValue (resolveExpected ov p.2 p.1) v with
    | ok c => rfl
    | error e => rfl

theorem bindParams_pres (sig : List (String × String)) (ov : FunctionOverride)
    (m : AList) (k : String)
    (hk : ∀ p ∈ sig, p.1 = k → lookupA m k = Option.none) :
    ∀ (b b1 : AList), bindParams sig ov m b = Except.ok b1 →
      lookupA b1 k = lookupA b k := by
  induction sig with
  | nil =>
    intro b b1 hb
    rw [bindParams_nil] at hb
    cases hb
    rfl
  | cons p rest ih =>
    intro b b1 hb
    rw [bindParams_cons] at hb
    have ihk : ∀ q ∈ rest, q.1 = k → lookupA m k = Option.none :=
      fun q hq => hk q (List.mem_cons.2 (Or.inr hq))
    cases hl : lookupA m p.1 with
    | none =>
      rw [hl] at hb
      exact ih ihk b b1 hb
    | some v =>
      rw [hl] at hb
      dsimp only at hb
      have hpk : p.1 ≠ k := by
        intro he
        rw [he] at hl
        rw [hk p (List.mem_cons.2 (Or.inl rfl)) he] at hl
        exact absurd hl (by simp)
      cases hc : coerceValue (resolveExpected ov p.2 p.1) v with
      | error e =>
        rw [hc] at hb
        exact absurd hb (by simp [Except.bind])
      | ok c =>
        rw [hc] at hb
        have hb' : bindParams rest ov m (setK b p.1 c) = Except.ok b1 := hb
        rw [ih ihk (setK b p.1 c) b1 hb']
        exact lookupA_setK_ne b p.1 k c (fun he => hpk he.symm)

theorem bindParams_declared (sig : List (String × String)) (ov : FunctionOverride)
    (m : AList) (p : String × String) (v : Val)
    (hnodup : (sig.map Prod.fst).Nodup) (hp : p ∈ sig) (hv : lookupA m p.1 = some v) :
    ∀ (b b1 : AList), bindParams sig ov m b = Except.ok b1 →
      ∃ c, coerceValue (resolveExpected ov p.2 p.1) v = Except.ok c ∧
        lookupA b1 p.1 = some c := by
  induction sig with
  | nil => exact absurd hp (by simp)
  | cons q rest ih =>
    intro b b1 hb
    rw [bindParams_cons] at hb
    rw [List.map_cons, List.nodup_cons] at hnodup
    rcases List.mem_cons.1 hp with hpq | hpq
    · subst hpq
      rw [hv] at hb
      dsimp only at hb
      cases hc : coerceValue (resolveExpected ov p.2 p.1) v with
      | error e =>
        rw [hc] at hb
        exact absurd hb (by simp [Except.bind])
      | ok c =>
        rw [hc] at hb
        refine ⟨c, rfl, ?_⟩
        have hrest : ∀ r ∈ rest, r.1 = p.1 → lookupA m p.1 = Option.none := by
          intro r hr he
          exact absurd (he ▸ List.mem_map_of_mem Prod.fst hr) hnodup.1
        rw [bindParams_pres rest ov m p.1 hrest (setK b p.1 c) b1 hb]
        exact lookupA_setK_self b p.1 c
    · cases hl : lookupA m q.1 with
      | none =>
        rw [hl] at hb
        exact ih hnodup.2 hpq b b1 hb
      | some w =>
        rw [hl] at hb
        dsimp only at hb
        cases hc : coerceValue (resolveExpected ov q.2 q.1) w with
        | error e =>
          rw [hc] at hb
          exact absurd hb (by simp [Except.bind])
        | ok c =>
          rw [hc] at hb
          exact ih hnodup.2 hpq (setK b q.1 c) b1 hb

theorem passThrough_cons (kv : String × Val) (m b : AList) :
    passThrough (kv :: m) b =
      passThrough m (if hasKey b kv.1 then b else setK b kv.1 kv.2) := rfl

theorem passThrough_pres (m : AList) (k : String) :
    ∀ b : AList, hasKey b k = true → lookupA (passThrough m b) k = lookupA b k := by
  induction m with
  | nil =>
    intro b _
    rfl
  | cons kv rest ih =>
    intro b h
    rw [passThrough_cons]
    by_cases hb : hasKey b kv.1 = true
    · rw [if_pos hb]
      exact ih b h
    · rw [if_neg hb]
      have hne : kv.1 ≠ k := by
        intro he
        rw [he] at hb
        exact hb h
      rw [ih (setK b kv.1 kv.2) (hasKey_setK_of_hasKey b kv.1 k kv.2 h)]
      exact lookupA_setK_ne b kv.1 k kv.2 (fun he => hne he.symm)

theorem passThrough_absent (m : AList) (k : String) :
    ∀ b : AList, hasKey b k = false →
      lookupA (passThrough m b) k = (lookupA m k).or (lookupA b k) := by
  induction m with
  | nil =>
    intro b _
    simp [passThrough, lookupA_nil, Option.or]
  | cons kv rest ih =>
    intro b h
    rw [passThrough_cons, lookupA_cons]
    by_cases hkv : kv.1 = k
    · have hbk : hasKey b kv.1 = false := by rw [hkv]; exact h
      rw [if_neg (by simp [hbk]), if_pos hkv.symm]
      rw [passThrough_pres rest k (setK b kv.1 kv.2)
        (by rw [hkv] at hbk ⊢; exact hasKey_setK_self b k kv.2)]
      rw [show lookupA (setK b kv.1 kv.2) k = some kv.2 from by
        rw [hkv]; exact lookupA_setK_self b k kv.2]
      rfl
    · have hrhs : (if k = kv.1 then some kv.2 else lookupA rest k) = lookupA rest k :=
        if_neg (fun he => hkv he.symm)
      rw [hrhs]
      by_cases hb : hasKey b kv.1 = true
      · rw [if_pos hb]
        exact ih b h
      · rw [if_neg hb]
        rw [ih (setK b kv.1 kv.2) (by rw [hasKey_setK_ne b kv.1 k kv.2 hkv]; exact h)]
        rw [lookupA_setK_ne b kv.1 k kv.2 (fun he => hkv he.symm)]

theorem lookup_defaults_seed (ds : List (String × Val)) (k : String)
    (hnodup : (ds.map Prod.fst).Nodup) :
    ∀ acc : AList,
      lookupA (ds.foldl (fun a kv => setK a kv.1 kv.2) acc) k =
        (List.lookup k ds).or (lookupA acc k) := by
  induction ds with
  | nil =>
    intro acc
    rfl
  | cons p rest ih =>
    intro acc
    rw [List.map_cons, List.nodup_cons] at hnodup
    rw [List.foldl_cons]
    by_cases hk : k = p.1
    · have hrest : ∀ q ∈ rest, q.1 ≠ k := by
        intro q hq he
        rw [hk] at he
        exact absurd (he ▸ List.mem_map_of_mem Prod.fst hq) hnodup.1
      rw [ih hnodup.2 (setK acc p.1 p.2)]
      have hlr : List.lookup k rest = Option.none := by
        cases hlr : List.lookup k rest with
        | none => rfl
        | some w => exact absurd rfl (hrest (k, w) (mem_of_lookupA rest k w hlr))
      rw [hlr]
      have hset : lookupA (setK acc p.1 p.2) k = some p.2 := by
        rw [hk]
        exact lookupA_setK_self acc p.1 p.2
      rw [hset]
      have hhead : List.lookup k (p :: rest) = some p.2 := by
        cases p with
        | mk a b =>
          simp only [List.lookup]
          rw [show (k == a) = true from by simpa using hk]
      rw [hhead]
      rfl
    · rw [ih hnodup.2 (setK acc p.1 p.2)]
      rw [lookupA_setK_ne acc p.1 k p.2 hk]
      have hhead : List.lookup k (p :: rest) = List.lookup k rest := by
        cases p with
        | mk a b =>
          simp only [List.lookup]
          rw [show (k == a) = false from beq_eq_false_iff_ne.mpr hk]
      rw [hhead]

theorem buildBinding_parts (sig : List (String × String)) (ov : FunctionOverride)
    (m bound : AList) (h : buildBinding sig ov m = Except.ok bound) :
    ∃ b1, bindParams sig ov m
        (ov.defaults.foldl (fun acc kv => setK acc kv.1 kv.2) []) = Except.ok b1 ∧
      bound = passThrough m b1 := by
  unfold buildBinding at h
  dsimp only at h
  cases hb : bindParams sig ov m
      (ov.defaults.foldl (fun acc kv => setK acc kv.1 kv.2) []) with
  | error e =>
    rw [hb] at h
    exact absurd h (by simp [Except.bind])
  | ok b1 =>
    rw [hb] at h
    have h2 : Except.ok (ε := String) (passThrough m b1) = Except.ok bound := h
    injection h2 with h3
    exact ⟨b1, rfl, h3.symm⟩

end MNotify

namespace MNotify

/-- C8 counterexample: a caller-supplied value for a key that is not a
declared parameter but does appear in `defaults` is NOT passed through —
the seeded default wins, because the pass-through loop only fills keys that
are still absent from the binding.  Calling a wrapper with defaults
`{x: "d"}` and argument `{x: "caller"}` (with `x` undeclared) invokes the
domain function with `x = "d"`. -/
theorem binding_construction_cex :
    wrapper [] ⟨[], [], [], [], [("x", Val.str "d")], [], []⟩ [("x", Val.str "caller")] =
      Except.ok (CallResult.invoked [("x", Val.str "d")]) ∧
    lookupA [("x", Val.str "d")] "x" = some (Val.str "d") ∧
    Val.str "d" ≠ Val.str "caller" :=
  ⟨rfl, rfl, by simp⟩

/-- C8 (amended): the Binding is seeded with the override's `defaults`; a
caller-supplied value for a declared parameter is coerced at the resolved
kind and overwrites any seeded default; and a remaining caller-supplied key
that matches no declared parameter is passed through unchanged only when it
is not already bound — in particular a key that also appears in `defaults`
keeps the default value, the caller's value being dropped. -/
theorem binding_construction (sig : List (String × String)) (ov : FunctionOverride)
    (m bound : AList)
    (hsig : (sig.map Prod.fst).Nodup) (hdef : (ov.defaults.map Prod.fst).Nodup)
    (hbb : buildBinding sig ov m = Except.ok bound) :
    (∀ p ∈ sig, ∀ v, lookupA m p.1 = some v →
      ∃ c, coerceValue (resolveExpected ov p.2 p.1) v = Except.ok c ∧
        lookupA bound p.1 = some c) ∧
    (∀ k dv, (∀ p ∈ sig, p.1 = k → lookupA m k = Option.none) →
      List.lookup k ov.defaults = some dv → lookupA bound k = some dv) ∧
    (∀ k, (∀ p ∈ sig, p.1 = k → lookupA m k = Option.none) →
      List.lookup k ov.defaults = Option.none → lookupA bound k = lookupA m k) := by
  obtain ⟨b1, hb1, hbd⟩ := buildBinding_parts sig ov m bound hbb
  subst hbd
  have hD : ∀ k, lookupA (ov.defaults.foldl (fun acc kv => setK acc kv.1 kv.2) []) k =
      List.lookup k ov.defaults := by
    intro k
    rw [lookup_defaults_seed ov.defaults k hdef []]
    simp [lookupA_nil]
  refine ⟨?_, ?_, ?_⟩
  · intro p hp v hv
    obtain ⟨c, hc, hlk⟩ := bindParams_declared sig ov m p v hsig hp hv _ b1 hb1
    refine ⟨c, hc, ?_⟩
    rw [passThrough_pres m p.1 b1 (by rw [hasKey_eq_isSome, hlk]; rfl)]
    exact hlk
  · intro k dv hnk hdv
    have hlk : lookupA b1 k = some dv := by
      rw [bindParams_pres sig ov m k hnk _ b1 hb1, hD k, hdv]
    rw [passThrough_pres m k b1 (by rw [hasKey_eq_isSome, hlk]; rfl)]
    exact hlk
  · intro k hnk hdv
    have hlk : lookupA b1 k = Option.none := by
      rw [bindParams_pres sig ov m k hnk _ b1 hb1, hD k, hdv]
    rw [passThrough_absent m k b1 (by rw [hasKey_eq_isSome, hlk]; rfl), hlk]
    simp

/-- Witness for C8: the defaults-shadowing clause applied to the concrete
counterexample configuration. -/
theorem binding_construction_witness :
    lookupA [("x", Val.str "d")] "x" = some (Val.str "d") :=
  (binding_construction [] ⟨[], [], [], [], [("x", Val.str "d")], [], []⟩
      [("x", Val.str "caller")] [("x", Val.str "d")] (by simp) (by simp) rfl).2.1
    "x" (Val.str "d") (fun p hp => absurd hp (by simp)) rfl

end MNotify

namespace MNotify

/-! ### C9: key sets and generic lemmas -/

/-- Keys the Normalizer can introduce (rewrite canonicals plus the
name-splitting outputs). -/
def producedKeys : List String :=
  ["phone", "group_id", "contact_id", "template_id", "campaign_id",
   "first_name", "last_name"]

/-- Keys whose presence can make a Normalizer step fire. -/
def triggerKeys : List String :=
  ["phoneNumber", "phone_number", "groupId", "group", "contactId",
   "templateId", "campaignId", "full_name", "name", "contacts"]

theorem exists_mem_of_hasKey (m : AList) (k : String) (h : hasKey m k = true) :
    ∃ kv ∈ m, kv.1 = k := by
  simp only [hasKey, List.any_eq_true] at h
  obtain ⟨kv, hkv, he⟩ := h
  exact ⟨kv, hkv, by simpa using he⟩

theorem hasKey_iff_mem_keys (m : AList) (k : String) :
    hasKey m k = true ↔ k ∈ m.map Prod.fst := by
  constructor
  · intro h
    obtain ⟨kv, hkv, he⟩ := exists_mem_of_hasKey m k h
    exact he ▸ List.mem_map_of_mem Prod.fst hkv
  · intro h
    obtain ⟨kv, hkv, he⟩ := List.mem_map.1 h
    have := hasKey_of_mem m kv hkv
    rw [he] at this
    exact this

theorem keys_setK_subset (m : AList) (k k' : String) (v : Val)
    (h : k' ∈ (setK m k v).map Prod.fst) : k' ∈ m.map Prod.fst ∨ k' = k := by
  obtain ⟨p, hp, he⟩ := List.mem_map.1 h
  rcases mem_setK m k v p hp with h1 | h1
  · right
    rw [← he, h1]
  · left
    exact he ▸ List.mem_map_of_mem Prod.fst h1

theorem setK_nodup (m : AList) (k : String) (v : Val)
    (h : (m.map Prod.fst).Nodup) : ((setK m k v).map Prod.fst).Nodup := by
  induction m with
  | nil => simp [setK]
  | cons kv rest ih =>
    rw [List.map_cons, List.nodup_cons] at h
    rw [setK_cons]
    by_cases hk : kv.1 = k
    · rw [if_pos hk, List.map_cons, List.nodup_cons]
      exact ⟨hk ▸ h.1, h.2⟩
    · rw [if_neg hk, List.map_cons, List.nodup_cons]
      refine ⟨fun hmem => ?_, ih h.2⟩
      rcases keys_setK_subset rest k kv.1 v hmem with h1 | h1
      · exact h.1 h1
      · exact hk h1

theorem eraseK_sublist (m : AList) (k : String) : List.Sublist (eraseK m k) m := by
  induction m with
  | nil => simp [eraseK]
  | cons kv rest ih =>
    rw [eraseK_cons]
    by_cases hk : kv.1 = k
    · rw [if_pos hk]
      exact List.sublist_cons_self kv rest
    · rw [if_neg hk]
      exact List.Sublist.cons₂ kv ih

theorem eraseK_nodup (m : AList) (k : String) (h : (m.map Prod.fst).Nodup) :
    ((eraseK m k).map Prod.fst).Nodup :=
  ((eraseK_sublist m k).map Prod.fst).nodup h

theorem hasKey_eraseK_self_nodup (m : AList) (k : String)
    (h : (m.map Prod.fst).Nodup) : hasKey (eraseK m k) k = false := by
  induction m with
  | nil => rfl
  | cons kv rest ih =>
    rw [List.map_cons, List.nodup_cons] at h
    rw [eraseK_cons]
    by_cases hk : kv.1 = k
    · rw [if_pos hk]
      cases hres : hasKey rest k with
      | false => rfl
      | true =>
        have := (hasKey_iff_mem_keys rest k).1 hres
        exact absurd (hk ▸ this) h.1
    · rw [if_neg hk, hasKey_cons, ih h.2]
      simp [hk]

theorem foldl_setK_nodup (l : List (String × Val)) :
    ∀ acc : AList, (acc.map Prod.fst).Nodup →
      ((l.foldl (fun a kv => setK a kv.1 kv.2) acc).map Prod.fst).Nodup := by
  induction l with
  | nil => exact fun acc h => h
  | cons p rest ih =>
    intro acc h
    rw [List.foldl_cons]
    exact ih (setK acc p.1 p.2) (setK_nodup acc p.1 p.2 h)

theorem updateA_nodup (m n : AList) (h : (m.map Prod.fst).Nodup) :
    ((updateA m n).map Prod.fst).Nodup :=
  foldl_setK_nodup n m h

theorem hasKey_updateA_cases (m n : AList) (k : String)
    (h : hasKey (updateA m n) k = true) : hasKey m k = true ∨ hasKey n k = true := by
  induction n generalizing m with
  | nil => exact Or.inl h
  | cons p rest ih =>
    rw [updateA, List.foldl_cons] at h
    rcases ih (setK m p.1 p.2) h with h1 | h1
    · rw [hasKey_setK, Bool.or_eq_true] at h1
      rcases h1 with h2 | h2
      · right
        rw [hasKey_cons]
        simp only [h2]
        simp
      · exact Or.inl h2
    · right
      rw [hasKey_cons, h1]
      simp

theorem hasKey_updateA_right (m n : AList) (k : String) (h : hasKey n k = true) :
    hasKey (updateA m n) k = true := by
  induction n generalizing m with
  | nil => exact absurd h (by simp [hasKey])
  | cons p rest ih =>
    rw [updateA, List.foldl_cons]
    rw [hasKey_cons] at h
    by_cases hp : p.1 = k
    · exact hasKey_updateA_left (setK m p.1 p.2) rest k
        (by rw [hasKey_setK]; simp [hp])
    · rw [Bool.or_eq_true] at h
      rcases h with h1 | h1
      · exact absurd (by simpa using h1) hp
      · exact ih (setK m p.1 p.2) h1

end MNotify

namespace MNotify

/-! ### C9: Alias Resolver lemmas -/

/-- One step of the Alias Resolver fold. -/
def aaStep (acc : AList) (p : String × String) : AList :=
  if hasKey acc p.1 && !hasKey acc p.2 then
    match lookupA acc p.1 with
    | some v => setK (eraseK acc p.1) p.2 v
    | Option.none => acc
  else acc

theorem applyAliases_eq_foldl (al : List (String × String)) (m : AList) :
    applyAliases al m = al.foldl aaStep m := rfl

theorem applyAliases_cons (p : String × String) (al : List (String × String))
    (m : AList) : applyAliases (p :: al) m = applyAliases al (aaStep m p) := rfl

theorem aaStep_hasKey_true (m : AList) (p : String × String) (k : String)
    (hp : p.1 ≠ k) (h : hasKey m k = true) : hasKey (aaStep m p) k = true := by
  unfold aaStep
  by_cases hc : (hasKey m p.1 && !hasKey m p.2) = true
  · rw [if_pos hc]
    cases hl : lookupA m p.1 with
    | none => exact h
    | some v =>
      rw [hasKey_setK]
      rw [hasKey_eraseK_ne m p.1 k (fun he => hp he.symm), h]
      simp
  · rw [if_neg hc]
    exact h

theorem aaStep_hasKey_false (m : AList) (p : String × String) (k : String)
    (hp : p.2 ≠ k) (h : hasKey m k = false) : hasKey (aaStep m p) k = false := by
  unfold aaStep
  by_cases hc : (hasKey m p.1 && !hasKey m p.2) = true
  · rw [if_pos hc]
    cases hl : lookupA m p.1 with
    | none => exact h
    | some v =>
      rw [hasKey_setK_ne _ p.2 k v hp]
      by_cases hk : p.1 = k
      · rw [← hk] at h
        rw [Bool.and_eq_true] at hc
        rw [hc.1] at h
        exact absurd h (by simp)
      · rw [hasKey_eraseK_ne m p.1 k (fun he => hk he.symm)]
        exact h
  · rw [if_neg hc]
    exact h

theorem aaStep_hasKey_cases (m : AList) (p : String × String) (k : String)
    (h : hasKey (aaStep m p) k = true) : hasKey m k = true ∨ p.2 = k := by
  unfold aaStep at h
  by_cases hc : (hasKey m p.1 && !hasKey m p.2) = true
  · rw [if_pos hc] at h
    cases hl : lookupA m p.1 with
    | none =>
      rw [hl] at h
      exact Or.inl h
    | some v =>
      rw [hl] at h
      rw [hasKey_setK, Bool.or_eq_true] at h
      rcases h with h1 | h1
      · exact Or.inr (by simpa using h1)
      · by_cases hk : p.1 = k
        · left
          rw [← hk]
          rw [Bool.and_eq_true] at hc
          exact hc.1
        · rw [hasKey_eraseK_ne m p.1 k (fun he => hk he.symm)] at h1
          exact Or.inl h1
  · rw [if_neg hc] at h
    exact Or.inl h

theorem aaStep_lookup_pres (m : AList) (p : String × String) (k : String)
    (hp1 : p.1 ≠ k) (hp2 : p.2 ≠ k) : lookupA (aaStep m p) k = lookupA m k := by
  unfold aaStep
  by_cases hc : (hasKey m p.1 && !hasKey m p.2) = true
  · rw [if_pos hc]
    cases hl : lookupA m p.1 with
    | none => rfl
    | some v =>
      rw [lookupA_setK_ne _ p.2 k v (fun he => hp2 he.symm)]
      exact lookupA_eraseK_ne m p.1 k (fun he => hp1 he.symm)
  · rw [if_neg hc]

theorem aaStep_nodup (m : AList) (p : String × String)
    (h : (m.map Prod.fst).Nodup) : ((aaStep m p).map Prod.fst).Nodup := by
  unfold aaStep
  by_cases hc : (hasKey m p.1 && !hasKey m p.2) = true
  · rw [if_pos hc]
    cases hl : lookupA m p.1 with
    | none => exact h
    | some v => exact setK_nodup _ p.2 v (eraseK_nodup m p.1 h)
  · rw [if_neg hc]
    exact h

theorem aa_hasKey_pres_true (al : List (String × String)) (m : AList) (k : String)
    (hal : ∀ p ∈ al, p.1 ≠ k) (h : hasKey m k = true) :
    hasKey (applyAliases al m) k = true := by
  induction al generalizing m with
  | nil => exact h
  | cons p rest ih =>
    rw [applyAliases_cons]
    exact ih (aaStep m p)
      (fun q hq => hal q (List.mem_cons.2 (Or.inr hq)))
      (aaStep_hasKey_true m p k (hal p (List.mem_cons.2 (Or.inl rfl))) h)

theorem aa_hasKey_false_pres (al : List (String × String)) (m : AList) (k : String)
    (hal : ∀ p ∈ al, p.2 ≠ k) (h : hasKey m k = false) :
    hasKey (applyAliases al m) k = false := by
  induction al generalizing m with
  | nil => exact h
  | cons p rest ih =>
    rw [applyAliases_cons]
    exact ih (aaStep m p)
      (fun q hq => hal q (List.mem_cons.2 (Or.inr hq)))
      (aaStep_hasKey_false m p k (hal p (List.mem_cons.2 (Or.inl rfl))) h)

theorem aa_hasKey_cases (al : List (String × String)) (m : AList) (k : String)
    (h : hasKey (applyAliases al m) k = true) :
    hasKey m k = true ∨ ∃ p ∈ al, p.2 = k := by
  induction al generalizing m with
  | nil => exact Or.inl h
  | cons p rest ih =>
    rw [applyAliases_cons] at h
    rcases ih (aaStep m p) h with h1 | h1
    · rcases aaStep_hasKey_cases m p k h1 with h2 | h2
      · exact Or.inl h2
      · exact Or.inr ⟨p, List.mem_cons.2 (Or.inl rfl), h2⟩
    · obtain ⟨q, hq, h2⟩ := h1
      exact Or.inr ⟨q, List.mem_cons.2 (Or.inr hq), h2⟩

theorem aa_lookup_pres (al : List (String × String)) (m : AList) (k : String)
    (hal : ∀ p ∈ al, p.1 ≠ k ∧ p.2 ≠ k) :
    lookupA (applyAliases al m) k = lookupA m k := by
  induction al generalizing m with
  | nil => rfl
  | cons p rest ih =>
    rw [applyAliases_cons]
    rw [ih (aaStep m p) (fun q hq => hal q (List.mem_cons.2 (Or.inr hq)))]
    exact aaStep_lookup_pres m p k (hal p (List.mem_cons.2 (Or.inl rfl))).1
      (hal p (List.mem_cons.2 (Or.inl rfl))).2

theorem aa_nodup (al : List (String × String)) (m : AList)
    (h : (m.map Prod.fst).Nodup) : ((applyAliases al m).map Prod.fst).Nodup := by
  induction al generalizing m with
  | nil => exact h
  | cons p rest ih =>
    rw [applyAliases_cons]
    exact ih (aaStep m p) (aaStep_nodup m p h)

theorem aa_lookup_of_present (al : List (String × String)) (m : AList) (k : String)
    (hm : (m.map Prod.fst).Nodup) (hal : ∀ p ∈ al, p.2 ≠ k)
    (h : hasKey (applyAliases al m) k = true) :
    lookupA (applyAliases al m) k = lookupA m k := by
  induction al generalizing m with
  | nil => rfl
  | cons p rest ih =>
    rw [applyAliases_cons] at h ⊢
    by_cases hp1 : p.1 = k
    · have hstep : hasKey (aaStep m p) k = false ∨ aaStep m p = m := by
        unfold aaStep
        by_cases hc : (hasKey m p.1 && !hasKey m p.2) = true
        · rw [if_pos hc]
          cases hl : lookupA m p.1 with
          | none => exact Or.inr rfl
          | some v =>
            left
            rw [hasKey_setK_ne _ p.2 k v (hal p (List.mem_cons.2 (Or.inl rfl)))]
            rw [← hp1]
            exact hasKey_eraseK_self_nodup m p.1 hm
        · rw [if_neg hc]
          exact Or.inr rfl
      rcases hstep with h1 | h1
      · have := aa_hasKey_false_pres rest (aaStep m p) k
          (fun q hq => hal q (List.mem_cons.2 (Or.inr hq))) h1
        rw [this] at h
        exact absurd h (by simp)
      · rw [h1] at h ⊢
        exact ih m hm (fun q hq => hal q (List.mem_cons.2 (Or.inr hq))) h
    · rw [ih (aaStep m p) (aaStep_nodup m p hm)
        (fun q hq => hal q (List.mem_cons.2 (Or.inr hq))) h]
      exact aaStep_lookup_pres m p k hp1 (hal p (List.mem_cons.2 (Or.inl rfl)))

theorem aa_fix (al : List (String × String)) (m : AList)
    (h : ∀ p ∈ al, hasKey m p.1 = false ∨ hasKey m p.2 = true) :
    applyAliases al m = m := by
  induction al with
  | nil => rfl
  | cons p rest ih =>
    rw [applyAliases_cons]
    have hstep : aaStep m p = m := by
      unfold aaStep
      rcases h p (List.mem_cons.2 (Or.inl rfl)) with h1 | h1
      · rw [if_neg (by simp [h1])]
      · rw [if_neg (by simp [h1])]
    rw [hstep]
    exact ih (fun q hq => h q (List.mem_cons.2 (Or.inr hq)))

theorem aa_post (al : List (String × String)) (m : AList)
    (hch : ∀ p ∈ al, ∀ q ∈ al, p.1 ≠ q.2) :
    ∀ p ∈ al, hasKey (applyAliases al m) p.1 = false ∨
      hasKey (applyAliases al m) p.2 = true := by
  induction al generalizing m with
  | nil => intro p hp; exact absurd hp (by simp)
  | cons q rest ih =>
    intro p hp
    rw [applyAliases_cons]
    rcases List.mem_cons.1 hp with hpq | hpq
    · subst hpq
      have hpost : hasKey (aaStep m p) p.1 = false ∨ hasKey (aaStep m p) p.2 = true := by
        unfold aaStep
        by_cases hc : (hasKey m p.1 && !hasKey m p.2) = true
        · rw [if_pos hc]
          cases hl : lookupA m p.1 with
          | none =>
            rw [Bool.and_eq_true] at hc
            rw [hasKey_eq_isSome, hasKey_false_lookupA m p.1 ?_] at hc
            · exact absurd hc.1 (by simp)
            · rw [hasKey_eq_isSome, hl]
              rfl
          | some v =>
            right
            rw [hasKey_setK]
            simp
        · rw [if_neg hc]
          rw [Bool.and_eq_true, not_and_or] at hc
          rcases hc with h1 | h1
          · left
            cases hk : hasKey m p.1 with
            | false => rfl
            | true => exact absurd hk h1
          · right
            cases hk : hasKey m p.2 with
            | true => rfl
            | false =>
              exfalso
              apply h1
              rw [hk]
              rfl
      have hkeep : ∀ n : AList, hasKey n p.1 = false ∨ hasKey n p.2 = true →
          hasKey (applyAliases rest n) p.1 = false ∨
            hasKey (applyAliases rest n) p.2 = true := by
        intro n hn
        rcases hn with h1 | h1
        · left
          refine aa_hasKey_false_pres rest n p.1 ?_ h1
          intro r hr
          exact fun he =>
            hch p (List.mem_cons.2 (Or.inl rfl)) r (List.mem_cons.2 (Or.inr hr)) he.symm
        · right
          refine aa_hasKey_pres_true rest n p.2 ?_ h1
          intro r hr
          exact fun he =>
            hch r (List.mem_cons.2 (Or.inr hr)) p (List.mem_cons.2 (Or.inl rfl)) he
      exact hkeep (aaStep m p) hpost
    · exact ih (aaStep m q)
        (fun a ha b hb =>
          hch a (List.mem_cons.2 (Or.inr ha)) b (List.mem_cons.2 (Or.inr hb)))
        p hpq

end MNotify

namespace MNotify

/-! ### C9: normalizer-step lemmas -/

theorem canonOf_ne_imp_variant (k : String) (h : canonOf k ≠ k) : k ∈ triggerKeys := by
  unfold canonOf at h
  by_cases h1 : (k == "phoneNumber" || k == "phone_number") = true
  · rw [Bool.or_eq_true] at h1
    rcases h1 with h2 | h2 <;> rw [show k = _ from by simpa using h2] <;> simp [triggerKeys]
  · rw [if_neg h1] at h
    by_cases h2 : (k == "groupId" || k == "group") = true
    · rw [Bool.or_eq_true] at h2
      rcases h2 with h3 | h3 <;> rw [show k = _ from by simpa using h3] <;> simp [triggerKeys]
    · rw [if_neg h2] at h
      by_cases h3 : (k == "contactId") = true
      · rw [show k = _ from by simpa using h3]
        simp [triggerKeys]
      · rw [if_neg h3] at h
        by_cases h4 : (k == "templateId") = true
        · rw [show k = _ from by simpa using h4]
          simp [triggerKeys]
        · rw [if_neg h4] at h
          by_cases h5 : (k == "campaignId") = true
          · rw [show k = _ from by simpa using h5]
            simp [triggerKeys]
          · rw [if_neg h5] at h
            exact absurd rfl h

theorem canonOf_target_self (k : String) (h : k ∈ canonTargets) : canonOf k = k := by
  simp only [canonTargets, List.mem_cons] at h
  rcases h with rfl | rfl | rfl | rfl | rfl | h <;> first | rfl | simp at h

theorem canonTargets_subset_produced (k : String) (h : k ∈ canonTargets) :
    k ∈ producedKeys := by
  simp only [canonTargets, List.mem_cons] at h
  rcases h with rfl | rfl | rfl | rfl | rfl | h
  · simp [producedKeys]
  · simp [producedKeys]
  · simp [producedKeys]
  · simp [producedKeys]
  · simp [producedKeys]
  · simp at h

theorem rw_hasKey_mono (m : AList) (k : String) (h : hasKey m k = true) :
    hasKey (rewriteKeys m) k = true :=
  hasKey_updateA_left m (rewriteAux m) k h

theorem foldl_rwStep_mono (m : AList) (l : List (String × Val)) (k : String) :
    ∀ acc : AList, hasKey acc k = true → hasKey (l.foldl (rwStep m) acc) k = true := by
  induction l with
  | nil => exact fun acc h => h
  | cons kv rest ih =>
    intro acc h
    rw [List.foldl_cons]
    refine ih (rwStep m acc kv) ?_
    unfold rwStep
    by_cases hc : hasKey m (canonOf kv.1) = true
    · rw [if_pos (by simpa using hc)]
      exact h
    · rw [if_neg (by simpa using hc)]
      exact hasKey_setK_of_hasKey acc (canonOf kv.1) k kv.2 h

theorem foldl_rwStep_adds (m : AList) (l : List (String × Val)) (kv : String × Val)
    (hkv : kv ∈ l) (hc : hasKey m (canonOf kv.1) = false) :
    ∀ acc : AList, hasKey (l.foldl (rwStep m) acc) (canonOf kv.1) = true := by
  induction l with
  | nil => exact absurd hkv (by simp)
  | cons kw rest ih =>
    intro acc
    rw [List.foldl_cons]
    rcases List.mem_cons.1 hkv with h1 | h1
    · subst h1
      refine foldl_rwStep_mono m rest (canonOf kv.1) (rwStep m acc kv) ?_
      unfold rwStep
      rw [if_neg (by simp [hc])]
      exact hasKey_setK_self acc (canonOf kv.1) kv.2
    · exact ih h1 (rwStep m acc kw)

theorem rw_canon (m : AList) (k : String) (h : hasKey m k = true) :
    hasKey (rewriteKeys m) (canonOf k) = true := by
  by_cases hc : hasKey m (canonOf k) = true
  · exact rw_hasKey_mono m (canonOf k) hc
  · obtain ⟨kv, hkv, he⟩ := exists_mem_of_hasKey m k h
    unfold rewriteKeys
    refine hasKey_updateA_right m (rewriteAux m) (canonOf k) ?_
    have hadd := foldl_rwStep_adds m m kv hkv (by rw [he]; simpa using hc) []
    rw [he] at hadd
    unfold rewriteAux
    exact hadd

theorem rw_hasKey_cases (m : AList) (k : String)
    (h : hasKey (rewriteKeys m) k = true) :
    hasKey m k = true ∨ k ∈ canonTargets := by
  rcases hasKey_updateA_cases m (rewriteAux m) k h with h1 | h1
  · exact Or.inl h1
  · obtain ⟨kv, hkv, he⟩ := exists_mem_of_hasKey (rewriteAux m) k h1
    exact Or.inr (he ▸ mem_rewriteAux m kv hkv)

theorem foldl_rwStep_nil (m : AList) (l : List (String × Val))
    (h : ∀ kv ∈ l, hasKey m (canonOf kv.1) = true) :
    ∀ acc : AList, l.foldl (rwStep m) acc = acc := by
  induction l with
  | nil => exact fun acc => rfl
  | cons kv rest ih =>
    intro acc
    rw [List.foldl_cons]
    have hstep : rwStep m acc kv = acc := by
      unfold rwStep
      rw [if_pos (by simpa using h kv (List.mem_cons.2 (Or.inl rfl)))]
    rw [hstep]
    exact ih (fun kw hkw => h kw (List.mem_cons.2 (Or.inr hkw))) acc

theorem rw_fix (m : AList) (h : ∀ kv ∈ m, hasKey m (canonOf kv.1) = true) :
    rewriteKeys m = m := by
  unfold rewriteKeys rewriteAux
  rw [foldl_rwStep_nil m m h []]
  rfl

theorem rw_nodup (m : AList) (h : (m.map Prod.fst).Nodup) :
    ((rewriteKeys m).map Prod.fst).Nodup :=
  updateA_nodup m (rewriteAux m) h

theorem split_hasKey_pres (m : AList) (k : String) (h1 : k ≠ "first_name")
    (h2 : k ≠ "last_name") : hasKey (splitName m) k = hasKey m k := by
  rw [hasKey_eq_isSome, hasKey_eq_isSome, split_lookup_pres m k h1 h2]

theorem fold_hasKey_pres (m : AList) (k : String) (h : k ≠ "phone") :
    hasKey (foldContacts m) k = hasKey m k := by
  rw [hasKey_eq_isSome, hasKey_eq_isSome, fold_lookup_pres m k h]

theorem split_hasKey_mono (m : AList) (k : String) (h : hasKey m k = true) :
    hasKey (splitName m) k = true := by
  unfold splitName
  cases hfv : fvOf m with
  | none => exact h
  | some v =>
    dsimp only
    by_cases hc : (pyTruthy v && (!hasKey m "first_name" && !hasKey m "last_name")) = true
    · rw [if_pos hc]
      cases hw : nameParts v with
      | nil => exact h
      | cons p rest =>
        cases rest with
        | nil => exact hasKey_setK_of_hasKey m "first_name" k (Val.str p) h
        | cons q rest2 =>
          exact hasKey_setK_of_hasKey _ "last_name" k _
            (hasKey_setK_of_hasKey m "first_name" k _ h)
    · rw [if_neg hc]
      exact h

theorem split_hasKey_cases (m : AList) (k : String)
    (h : hasKey (splitName m) k = true) :
    hasKey m k = true ∨ k = "first_name" ∨ k = "last_name" := by
  by_cases h1 : k = "first_name"
  · exact Or.inr (Or.inl h1)
  · by_cases h2 : k = "last_name"
    · exact Or.inr (Or.inr h2)
    · rw [split_hasKey_pres m k h1 h2] at h
      exact Or.inl h

theorem fold_hasKey_mono (m : AList) (k : String) (h : hasKey m k = true) :
    hasKey (foldContacts m) k = true := by
  by_cases hp : k = "phone"
  · unfold foldContacts
    by_cases hc : (hasKey m "contacts" && !hasKey m "phone") = true
    · rw [Bool.and_eq_true] at hc
      rw [hp] at h
      rw [h] at hc
      exact absurd hc.2 (by simp)
    · rw [if_neg hc]
      exact h
  · rw [fold_hasKey_pres m k hp]
    exact h

theorem fold_hasKey_cases (m : AList) (k : String)
    (h : hasKey (foldContacts m) k = true) : hasKey m k = true ∨ k = "phone" := by
  by_cases hp : k = "phone"
  · exact Or.inr hp
  · rw [fold_hasKey_pres m k hp] at h
    exact Or.inl h

theorem split_nodup (m : AList) (h : (m.map Prod.fst).Nodup) :
    ((splitName m).map Prod.fst).Nodup := by
  unfold splitName
  cases hfv : fvOf m with
  | none => exact h
  | some v =>
    dsimp only
    by_cases hc : (pyTruthy v && (!hasKey m "first_name" && !hasKey m "last_name")) = true
    · rw [if_pos hc]
      cases hw : nameParts v with
      | nil => exact h
      | cons p rest =>
        cases rest with
        | nil => exact setK_nodup m "first_name" (Val.str p) h
        | cons q rest2 => exact setK_nodup _ "last_name" _ (setK_nodup m "first_name" _ h)
    · rw [if_neg hc]
      exact h

theorem fold_nodup (m : AList) (h : (m.map Prod.fst).Nodup) :
    ((foldContacts m).map Prod.fst).Nodup := by
  unfold foldContacts
  by_cases hc : (hasKey m "contacts" && !hasKey m "phone") = true
  · rw [if_pos hc]
    cases hl : lookupA m "contacts" with
    | none => exact h
    | some v =>
      cases v with
      | list xs =>
        dsimp only
        by_cases he : xs.isEmpty = true
        · rw [if_pos he]
          exact h
        · rw [if_neg he]
          cases hf : firstNonEmpty xs with
          | none => exact h
          | some s => exact setK_nodup m "phone" (Val.str s) h
      | none => exact h
      | str s => exact h
      | bool b => exact h
      | int n => exact h
      | float q => exact h
      | dict xs => exact h
  · rw [if_neg hc]
    exact h

theorem normalize_nodup (m : AList) (h : (m.map Prod.fst).Nodup) :
    ((normalize m).map Prod.fst).Nodup :=
  fold_nodup _ (split_nodup _ (rw_nodup m h))

end MNotify

namespace MNotify

/-! ### C9: fixpoint conditions for the normalizer steps -/

theorem fvOf_congr (m1 m2 : AList)
    (h1 : hasKey m1 "full_name" = hasKey m2 "full_name")
    (h2 : lookupA m1 "full_name" = lookupA m2 "full_name")
    (h3 : hasKey m1 "name" = hasKey m2 "name")
    (h4 : lookupA m1 "name" = lookupA m2 "name") : fvOf m1 = fvOf m2 := by
  unfold fvOf
  rw [h1, h2, h3, h4]

theorem split_fix (m : AList)
    (h : ∀ v, fvOf m = some v → pyTruthy v = true →
      hasKey m "first_name" = true ∨ hasKey m "last_name" = true ∨ nameParts v = []) :
    splitName m = m := by
  unfold splitName
  cases hfv : fvOf m with
  | none => rfl
  | some v =>
    dsimp only
    by_cases hc : (pyTruthy v && (!hasKey m "first_name" && !hasKey m "last_name")) = true
    · rw [if_pos hc]
      rw [Bool.and_eq_true, Bool.and_eq_true] at hc
      rcases h v hfv hc.1 with h1 | h1 | h1
      · rw [h1] at hc
        exact absurd hc.2.1 (by simp)
      · rw [h1] at hc
        exact absurd hc.2.2 (by simp)
      · rw [h1]
    · rw [if_neg hc]

theorem split_post (m : AList) (v : Val)
    (hfv : fvOf (splitName m) = some v) (ht : pyTruthy v = true)
    (hw : nameParts v ≠ []) :
    hasKey (splitName m) "first_name" = true ∨
      hasKey (splitName m) "last_name" = true := by
  have hfv_eq : fvOf (splitName m) = fvOf m :=
    fvOf_congr _ _ (split_hasKey_pres m "full_name" (by decide) (by decide))
      (split_lookup_pres m "full_name" (by decide) (by decide))
      (split_hasKey_pres m "name" (by decide) (by decide))
      (split_lookup_pres m "name" (by decide) (by decide))
  rw [hfv_eq] at hfv
  unfold splitName
  rw [hfv]
  dsimp only
  by_cases hc : (pyTruthy v && (!hasKey m "first_name" && !hasKey m "last_name")) = true
  · rw [if_pos hc]
    cases hnp : nameParts v with
    | nil => exact absurd hnp hw
    | cons p rest =>
      cases rest with
      | nil =>
        left
        exact hasKey_setK_self m "first_name" (Val.str p)
      | cons q rest2 =>
        right
        exact hasKey_setK_self _ "last_name" _
  · rw [if_neg hc]
    rw [Bool.and_eq_true, Bool.and_eq_true, not_and_or, not_and_or] at hc
    rcases hc with h1 | h1
    · exact absurd ht h1
    · rcases h1 with h2 | h2
      · left
        cases hk : hasKey m "first_name" with
        | true => rfl
        | false => exact absurd (by rw [hk]; rfl) h2
      · right
        cases hk : hasKey m "last_name" with
        | true => rfl
        | false => exact absurd (by rw [hk]; rfl) h2

theorem fold_fix (m : AList)
    (h : hasKey m "contacts" = true →
      hasKey m "phone" = true ∨
      (∃ xs, lookupA m "contacts" = some (Val.list xs) ∧ firstNonEmpty xs = Option.none) ∨
      (∀ xs, lookupA m "contacts" ≠ some (Val.list xs))) :
    foldContacts m = m := by
  unfold foldContacts
  by_cases hc : (hasKey m "contacts" && !hasKey m "phone") = true
  · rw [if_pos hc]
    rw [Bool.and_eq_true] at hc
    rcases h hc.1 with h1 | h1 | h1
    · rw [h1] at hc
      exact absurd hc.2 (by simp)
    · obtain ⟨xs, hxs, hfn⟩ := h1
      rw [hxs]
      dsimp only
      by_cases he : xs.isEmpty = true
      · rw [if_pos he]
      · rw [if_neg he, hfn]
    · cases hl : lookupA m "contacts" with
      | none => rfl
      | some w =>
        cases w with
        | list xs => exact absurd hl (h1 xs)
        | none => rfl
        | str s => rfl
        | bool b => rfl
        | int n => rfl
        | float q => rfl
        | dict xs => rfl
  · rw [if_neg hc]

theorem fold_post (m : AList) (h : hasKey (foldContacts m) "contacts" = true) :
    hasKey (foldContacts m) "phone" = true ∨
    (∃ xs, lookupA (foldContacts m) "contacts" = some (Val.list xs) ∧
      firstNonEmpty xs = Option.none) ∨
    (∀ xs, lookupA (foldContacts m) "contacts" ≠ some (Val.list xs)) := by
  have hcon : lookupA (foldContacts m) "contacts" = lookupA m "contacts" :=
    fold_lookup_pres m "contacts" (by decide)
  have hm : hasKey m "contacts" = true := by
    rw [← fold_hasKey_pres m "contacts" (by decide)]
    exact h
  by_cases hp : hasKey m "phone" = true
  · exact Or.inl (fold_hasKey_mono m "phone" hp)
  · cases hl : lookupA m "contacts" with
    | none =>
      rw [hasKey_eq_isSome, hl] at hm
      exact absurd hm (by simp)
    | some w =>
      cases w with
      | list xs =>
        cases hfn : firstNonEmpty xs with
        | none =>
          refine Or.inr (Or.inl ⟨xs, ?_, hfn⟩)
          rw [hcon, hl]
        | some s =>
          left
          have : foldContacts m = setK m "phone" (Val.str s) := by
            unfold foldContacts
            rw [if_pos (by rw [Bool.and_eq_true]; exact ⟨hm, by simp [hp]⟩), hl]
            dsimp only
            rw [if_neg ?_, hfn]
            intro he
            rw [show xs = [] from by simpa using he] at hfn
            simp [firstNonEmpty] at hfn
          rw [this]
          exact hasKey_setK_self m "phone" (Val.str s)
      | none =>
        refine Or.inr (Or.inr ?_)
        intro xs hxs
        rw [hcon, hl] at hxs
        exact absurd hxs (by simp)
      | str s =>
        refine Or.inr (Or.inr ?_)
        intro xs hxs
        rw [hcon, hl] at hxs
        exact absurd hxs (by simp)
      | bool b =>
        refine Or.inr (Or.inr ?_)
        intro xs hxs
        rw [hcon, hl] at hxs
        exact absurd hxs (by simp)
      | int n =>
        refine Or.inr (Or.inr ?_)
        intro xs hxs
        rw [hcon, hl] at hxs
        exact absurd hxs (by simp)
      | float q =>
        refine Or.inr (Or.inr ?_)
        intro xs hxs
        rw [hcon, hl] at hxs
        exact absurd hxs (by simp)
      | dict ys =>
        refine Or.inr (Or.inr ?_)
        intro xs hxs
        rw [hcon, hl] at hxs
        exact absurd hxs (by simp)

end MNotify

namespace MNotify

/-! ### C9: stability of a normalized-and-aliased mapping -/

theorem n_hasKey_canon (m : AList) (k : String)
    (h : hasKey (normalize m) k = true) :
    hasKey (normalize m) (canonOf k) = true := by
  by_cases hck : canonOf k = k
  · rw [hck]
    exact h
  · have h' : hasKey (foldContacts (splitName (rewriteKeys m))) k = true := h
    rcases fold_hasKey_cases _ k h' with h2 | h2
    · rcases split_hasKey_cases _ k h2 with h3 | h3 | h3
      · rcases rw_hasKey_cases m k h3 with h4 | h4
        · show hasKey (foldContacts (splitName (rewriteKeys m))) (canonOf k) = true
          exact fold_hasKey_mono _ _ (split_hasKey_mono _ _ (rw_canon m k h4))
        · exact absurd (canonOf_target_self k h4) hck
      · rw [h3] at hck
        exact absurd rfl hck
      · rw [h3] at hck
        exact absurd rfl hck
    · rw [h2] at hck
      exact absurd rfl hck

theorem norm_split_post (x : AList) (v : Val)
    (hfv : fvOf (normalize x) = some v) (ht : pyTruthy v = true)
    (hnp : nameParts v ≠ []) :
    hasKey (normalize x) "first_name" = true ∨
      hasKey (normalize x) "last_name" = true := by
  have hfv_eq : fvOf (normalize x) = fvOf (splitName (rewriteKeys x)) :=
    fvOf_congr _ _ (fold_hasKey_pres _ "full_name" (by decide))
      (fold_lookup_pres _ "full_name" (by decide))
      (fold_hasKey_pres _ "name" (by decide))
      (fold_lookup_pres _ "name" (by decide))
  rw [hfv_eq] at hfv
  rcases split_post (rewriteKeys x) v hfv ht hnp with h | h
  · exact Or.inl (fold_hasKey_mono _ _ h)
  · exact Or.inr (fold_hasKey_mono _ _ h)

/-- Hypotheses on an alias table under which the Normalizer-plus-Alias
pipeline is idempotent: no alias key is a key the Normalizer produces or
one of the name-splitting sources, no alias target is a Normalizer trigger
key, and no alias key is another pair's target (no alias chains).  Every
alias table of the repository satisfies these conditions. -/
def GoodAliases (al : List (String × String)) : Prop :=
  (∀ p ∈ al, p.1 ∉ producedKeys ∧ p.1 ≠ "full_name" ∧ p.1 ≠ "name") ∧
  (∀ p ∈ al, p.2 ∉ triggerKeys) ∧
  (∀ p ∈ al, ∀ q ∈ al, p.1 ≠ q.2)

theorem good_key_ne_produced (al : List (String × String)) (h : GoodAliases al)
    (k : String) (hk : k ∈ producedKeys) : ∀ p ∈ al, p.1 ≠ k := by
  intro p hp he
  exact (h.1 p hp).1 (he ▸ hk)

theorem good_target_ne_trigger (al : List (String × String)) (h : GoodAliases al)
    (k : String) (hk : k ∈ triggerKeys) : ∀ p ∈ al, p.2 ≠ k := by
  intro p hp he
  exact (h.2.1 p hp) (he ▸ hk)

theorem stable_rewrite (al : List (String × String)) (x : AList)
    (hg : GoodAliases al) :
    rewriteKeys (applyAliases al (normalize x)) = applyAliases al (normalize x) := by
  apply rw_fix
  intro kv hkv
  have hk : hasKey (applyAliases al (normalize x)) kv.1 = true :=
    hasKey_of_mem _ kv hkv
  by_cases hck : canonOf kv.1 = kv.1
  · rw [hck]
    exact hk
  · have hvar : kv.1 ∈ triggerKeys := canonOf_ne_imp_variant kv.1 hck
    rcases aa_hasKey_cases al (normalize x) kv.1 hk with hN | ⟨p, hp, hpk⟩
    · have hcanon := n_hasKey_canon x kv.1 hN
      refine aa_hasKey_pres_true al (normalize x) (canonOf kv.1) ?_ hcanon
      exact good_key_ne_produced al hg (canonOf kv.1)
        (canonTargets_subset_produced _ (canonOf_ne_imp_target kv.1 hck))
    · exact absurd (hpk ▸ hvar) (hg.2.1 p hp)

theorem stable_split (al : List (String × String)) (x : AList)
    (hg : GoodAliases al) :
    splitName (applyAliases al (normalize x)) = applyAliases al (normalize x) := by
  apply split_fix
  intro v hfv ht
  by_cases hnp : nameParts v = []
  · exact Or.inr (Or.inr hnp)
  · have hfn : ∀ p ∈ al, p.1 ≠ "full_name" ∧ p.2 ≠ "full_name" := by
      intro p hp
      exact ⟨(hg.1 p hp).2.1,
        good_target_ne_trigger al hg "full_name" (by simp [triggerKeys]) p hp⟩
    have hnm : ∀ p ∈ al, p.1 ≠ "name" ∧ p.2 ≠ "name" := by
      intro p hp
      exact ⟨(hg.1 p hp).2.2,
        good_target_ne_trigger al hg "name" (by simp [triggerKeys]) p hp⟩
    have hfv_eq : fvOf (applyAliases al (normalize x)) = fvOf (normalize x) := by
      refine fvOf_congr _ _ ?_ ?_ ?_ ?_
      · rw [hasKey_eq_isSome, hasKey_eq_isSome, aa_lookup_pres al _ "full_name" hfn]
      · exact aa_lookup_pres al _ "full_name" hfn
      · rw [hasKey_eq_isSome, hasKey_eq_isSome, aa_lookup_pres al _ "name" hnm]
      · exact aa_lookup_pres al _ "name" hnm
    rw [hfv_eq] at hfv
    rcases norm_split_post x v hfv ht hnp with h | h
    · refine Or.inl (aa_hasKey_pres_true al _ "first_name" ?_ h)
      exact good_key_ne_produced al hg "first_name" (by simp [producedKeys])
    · refine Or.inr (Or.inl (aa_hasKey_pres_true al _ "last_name" ?_ h))
      exact good_key_ne_produced al hg "last_name" (by simp [producedKeys])

theorem stable_fold (al : List (String × String)) (x : AList)
    (hx : (x.map Prod.fst).Nodup) (hg : GoodAliases al) :
    foldContacts (applyAliases al (normalize x)) = applyAliases al (normalize x) := by
  apply fold_fix
  intro hcon
  have htgt : ∀ p ∈ al, p.2 ≠ "contacts" :=
    good_target_ne_trigger al hg "contacts" (by simp [triggerKeys])
  have hval : lookupA (applyAliases al (normalize x)) "contacts" =
      lookupA (normalize x) "contacts" :=
    aa_lookup_of_present al (normalize x) "contacts" (normalize_nodup x hx) htgt hcon
  have hconN : hasKey (normalize x) "contacts" = true := by
    rcases aa_hasKey_cases al (normalize x) "contacts" hcon with h | ⟨p, hp, hpk⟩
    · exact h
    · exact absurd hpk (htgt p hp)
  have hconN' : hasKey (foldContacts (splitName (rewriteKeys x))) "contacts" = true :=
    hconN
  rcases fold_post (splitName (rewriteKeys x)) hconN' with h | h | h
  · refine Or.inl (aa_hasKey_pres_true al _ "phone" ?_ h)
    exact good_key_ne_produced al hg "phone" (by simp [producedKeys])
  · obtain ⟨xs, hxs, hfn⟩ := h
    refine Or.inr (Or.inl ⟨xs, ?_, hfn⟩)
    rw [hval]
    exact hxs
  · refine Or.inr (Or.inr ?_)
    intro xs hxs
    rw [hval] at hxs
    exact h xs hxs

/-- C9: for every input mapping (with distinct keys, as for a Python dict)
and every alias table satisfying the conditions met by all of the
repository's tables, applying the Normalizer followed by the Alias Resolver
twice yields exactly the same mapping as applying it once. -/
theorem normalizer_alias_idempotent (al : List (String × String)) (x : AList)
    (hx : (x.map Prod.fst).Nodup) (hg : GoodAliases al) :
    applyAliases al (normalize (applyAliases al (normalize x))) =
      applyAliases al (normalize x) := by
  have hnorm : normalize (applyAliases al (normalize x)) = applyAliases al (normalize x) := by
    show foldContacts (splitName (rewriteKeys (applyAliases al (normalize x)))) = _
    rw [stable_rewrite al x hg, stable_split al x hg, stable_fold al x hx hg]
  rw [hnorm]
  exact aa_fix al _ (aa_post al (normalize x) hg.2.2)

/-- Witness for C9: the merged alias table of `update_contact` and a
concrete mapping exercising a key rewrite, a name split, a contacts fold
and an alias move. -/
theorem normalizer_alias_idempotent_witness :
    applyAliases [("group", "group_id"), ("phone_number", "phone"),
        ("phoneNumber", "phone"), ("contactId", "contact_id")]
      (normalize (applyAliases [("group", "group_id"), ("phone_number", "phone"),
        ("phoneNumber", "phone"), ("contactId", "contact_id")]
        (normalize [("contactId", Val.str "c1"), ("full_name", Val.str "John Smith"),
          ("contacts", Val.list [Val.str "+233"])]))) =
    applyAliases [("group", "group_id"), ("phone_number", "phone"),
        ("phoneNumber", "phone"), ("contactId", "contact_id")]
      (normalize [("contactId", Val.str "c1"), ("full_name", Val.str "John Smith"),
        ("contacts", Val.list [Val.str "+233"])]) :=
  normalizer_alias_idempotent
    [("group", "group_id"), ("phone_number", "phone"),
     ("phoneNumber", "phone"), ("contactId", "contact_id")]
    [("contactId", Val.str "c1"), ("full_name", Val.str "John Smith"),
     ("contacts", Val.list [Val.str "+233"])]
    (by simp)
    ⟨by decide, by decide, by decide⟩

end MNotify

namespace MNotify

/-! ### C10 -/

theorem canonOf_ne_not_special (k : String) (h : canonOf k ≠ k) :
    k ∉ canonTargets ∧ k ≠ "first_name" ∧ k ≠ "last_name" := by
  refine ⟨fun hm => h (canonOf_target_self k hm), fun he => ?_, fun he => ?_⟩
  · rw [he] at h
    exact h rfl
  · rw [he] at h
    exact h rfl

theorem canonTargets_ne_split (t : String) (h : t ∈ canonTargets) :
    t ≠ "first_name" ∧ t ≠ "last_name" := by
  simp only [canonTargets, List.mem_cons] at h
  rcases h with rfl | rfl | rfl | rfl | rfl | h
  · exact ⟨by decide, by decide⟩
  · exact ⟨by decide, by decide⟩
  · exact ⟨by decide, by decide⟩
  · exact ⟨by decide, by decide⟩
  · exact ⟨by decide, by decide⟩
  · simp at h

theorem fold_id_of_phone (m : AList) (h : hasKey m "phone" = true) :
    foldContacts m = m := by
  unfold foldContacts
  rw [if_neg]
  simp [h]

theorem mem_foldl_rwStep_full (m : AList) (l : List (String × Val)) :
    ∀ (acc : AList) (p : String × Val), p ∈ l.foldl (rwStep m) acc →
      p ∈ acc ∨ ∃ kv ∈ l, p = (canonOf kv.1, kv.2) ∧ hasKey m (canonOf kv.1) = false := by
  induction l with
  | nil => exact fun acc p hp => Or.inl hp
  | cons kv rest ih =>
    intro acc p hp
    rw [List.foldl_cons] at hp
    rcases ih (rwStep m acc kv) p hp with h1 | h1
    · unfold rwStep at h1
      by_cases hc : hasKey m (canonOf kv.1) = true
      · rw [if_pos (by simpa using hc)] at h1
        exact Or.inl h1
      · rw [if_neg (by simpa using hc)] at h1
        rcases mem_setK acc (canonOf kv.1) kv.2 p h1 with h2 | h2
        · exact Or.inr ⟨kv, List.mem_cons.2 (Or.inl rfl), h2, by simpa using hc⟩
        · exact Or.inl h2
    · obtain ⟨kw, hkw, h2, h3⟩ := h1
      exact Or.inr ⟨kw, List.mem_cons.2 (Or.inr hkw), h2, h3⟩

theorem mem_eq_of_lookup_nodup (m : AList) (k : String) (v w : Val)
    (hnodup : (m.map Prod.fst).Nodup) (hmem : (k, w) ∈ m)
    (hlk : lookupA m k = some v) : w = v := by
  induction m with
  | nil => simp at hmem
  | cons kv rest ih =>
    rw [List.map_cons, List.nodup_cons] at hnodup
    rw [lookupA_cons] at hlk
    rcases List.mem_cons.1 hmem with h1 | h1
    · rw [← h1] at hlk
      rw [if_pos rfl] at hlk
      exact Option.some.inj hlk
    · have hk : k ≠ kv.1 := by
        intro he
        exact hnodup.1 (he ▸ List.mem_map_of_mem Prod.fst h1)
      rw [if_neg hk] at hlk
      exact ih hnodup.2 h1 hlk

theorem lookup_updateA_of_all (n : List (String × Val)) (c : String) (v : Val)
    (hall : ∀ p ∈ n, p.1 = c → p.2 = v) :
    ∀ m : AList, (hasKey n c = true ∨ lookupA m c = some v) →
      lookupA (updateA m n) c = some v := by
  induction n with
  | nil =>
    intro m h
    rcases h with h | h
    · exact absurd h (by simp [hasKey])
    · exact h
  | cons p rest ih =>
    intro m h
    rw [updateA, List.foldl_cons]
    have hrest : ∀ q ∈ rest, q.1 = c → q.2 = v :=
      fun q hq => hall q (List.mem_cons.2 (Or.inr hq))
    by_cases hp : p.1 = c
    · have hv : p.2 = v := hall p (List.mem_cons.2 (Or.inl rfl)) hp
      refine ih hrest (setK m p.1 p.2) (Or.inr ?_)
      rw [hp, hv] at *
      exact lookupA_setK_self m c v
    · refine ih hrest (setK m p.1 p.2) ?_
      rcases h with h | h
      · rw [hasKey_cons, Bool.or_eq_true] at h
        rcases h with h1 | h1
        · exact absurd (by simpa using h1) hp
        · exact Or.inl h1
      · right
        rw [lookupA_setK_ne m p.1 c p.2 (fun he => hp he.symm)]
        exact h

theorem rw_lookup_canon_unique (m : AList) (k : String) (v : Val)
    (hnodup : (m.map Prod.fst).Nodup)
    (hlk : lookupA m k = some v)
    (hc : hasKey m (canonOf k) = false)
    (huniq : ∀ kv ∈ m, canonOf kv.1 = canonOf k → kv.1 = k) :
    lookupA (rewriteKeys m) (canonOf k) = some v := by
  unfold rewriteKeys
  have hmemk : (k, v) ∈ m := mem_of_lookupA m k v hlk
  have hhk : hasKey (rewriteAux m) (canonOf k) = true := by
    have := foldl_rwStep_adds m m (k, v) hmemk (by simpa using hc) []
    exact this
  refine lookup_updateA_of_all (rewriteAux m) (canonOf k) v ?_ m (Or.inl hhk)
  intro p hp hpc
  rcases mem_foldl_rwStep_full m m [] p hp with h1 | h1
  · simp at h1
  · obtain ⟨kv, hkv, h2, h3⟩ := h1
    have hc1 : p.1 = canonOf kv.1 := by rw [h2]
    have hkvk : kv.1 = k := huniq kv hkv (by rw [← hc1, hpc])
    have hv2 : kv.2 = v :=
      mem_eq_of_lookup_nodup m k v kv.2 hnodup (by rw [← hkvk]; exact hkv) hlk
    rw [h2, hv2]

/-- C10: the Normalizer's key rewrites copy rather than move — a variant
key present while its canonical key is absent keeps its entry and value in
the normalized mapping while the canonical key is also written (with that
very value when the variant is the only key rewriting to that canonical);
such a variant, undeclared and undefaulted, flows through into the Binding
handed to the domain function; and the Alias Resolver is the one stage that
removes its alias key when it relocates a value. -/
theorem rewrites_copy_aliases_move :
    (∀ (m : AList) (k : String), canonOf k ≠ k → hasKey m k = true →
      hasKey m (canonOf k) = false →
      lookupA (normalize m) k = lookupA m k ∧
      hasKey (normalize m) (canonOf k) = true) ∧
    (∀ (m : AList) (k : String) (v : Val), (m.map Prod.fst).Nodup →
      canonOf k ≠ k → lookupA m k = some v → hasKey m (canonOf k) = false →
      (∀ kv ∈ m, canonOf kv.1 = canonOf k → kv.1 = k) →
      lookupA (normalize m) (canonOf k) = some v) ∧
    (∀ (sig : List (String × String)) (ov : FunctionOverride) (m bound : AList)
      (k : String) (v : Val),
      bindingOf sig ov m = Except.ok bound →
      lookupA (applyAliases ov.aliases (normalize (unwrapEnvelope m))) k = some v →
      (∀ p ∈ sig, p.1 ≠ k) → ((ov.defaults.map Prod.fst).Nodup) →
      List.lookup k ov.defaults = Option.none →
      lookupA bound k = some v) ∧
    (∀ (m : AList) (a c : String) (v : Val), (m.map Prod.fst).Nodup → a ≠ c →
      lookupA m a = some v → hasKey m c = false →
      applyAliases [(a, c)] m = setK (eraseK m a) c v ∧
      hasKey (applyAliases [(a, c)] m) a = false ∧
      lookupA (applyAliases [(a, c)] m) c = some v) := by
  refine ⟨?_, ?_, ?_, ?_⟩
  · intro m k hck hk hc
    obtain ⟨hnt, hf, hl⟩ := canonOf_ne_not_special k hck
    constructor
    · rw [normalize, fold_lookup_pres _ k ?hph, split_lookup_pres _ k hf hl,
        rw_lookup_pres m k hnt]
      case hph =>
        intro he
        rw [he] at hck
        exact hck rfl
    · exact fold_hasKey_mono _ _ (split_hasKey_mono _ _ (rw_canon m k hk))
  · intro m k v hnodup hck hlk hc huniq
    have hct : canonOf k ∈ canonTargets := canonOf_ne_imp_target k hck
    obtain ⟨hf, hl⟩ := canonTargets_ne_split (canonOf k) hct
    have hrw : lookupA (rewriteKeys m) (canonOf k) = some v :=
      rw_lookup_canon_unique m k v hnodup hlk hc huniq
    have hsplit : lookupA (splitName (rewriteKeys m)) (canonOf k) = some v := by
      rw [split_lookup_pres _ _ hf hl]
      exact hrw
    by_cases hph : canonOf k = "phone"
    · have hphk : hasKey (splitName (rewriteKeys m)) "phone" = true := by
        rw [hasKey_eq_isSome, ← hph, hsplit]
        rfl
      show lookupA (foldContacts (splitName (rewriteKeys m))) (canonOf k) = some v
      rw [fold_id_of_phone _ hphk]
      exact hsplit
    · show lookupA (foldContacts (splitName (rewriteKeys m))) (canonOf k) = some v
      rw [fold_lookup_pres _ _ hph]
      exact hsplit
  · intro sig ov m bound k v hbb hargs hsig hdef hdv
    obtain ⟨b1, hb1, hbd⟩ := buildBinding_parts sig ov
      (applyAliases ov.aliases (normalize (unwrapEnvelope m))) bound hbb
    subst hbd
    have hlb1 : lookupA b1 k = Option.none := by
      rw [bindParams_pres sig ov _ k (fun p hp he => absurd he (hsig p hp)) _ b1 hb1]
      rw [lookup_defaults_seed ov.defaults k hdef [], hdv]
      rfl
    rw [passThrough_absent _ k b1 (by rw [hasKey_eq_isSome, hlb1]; rfl), hlb1, hargs]
    rfl
  · intro m a c v hnodup hac hla hc
    have hka : hasKey m a = true := by
      rw [hasKey_eq_isSome, hla]
      rfl
    have hstep : applyAliases [(a, c)] m = setK (eraseK m a) c v := by
      rw [show applyAliases [(a, c)] m = aaStep m (a, c) from rfl]
      unfold aaStep
      rw [if_pos (by simp [hka, hc]), hla]
    refine ⟨hstep, ?_, ?_⟩
    · rw [hstep, hasKey_setK_ne _ c a v (fun he => hac he.symm)]
      exact hasKey_eraseK_self_nodup m a hnodup
    · rw [hstep]
      exact lookupA_setK_self _ c v

/-- Witness for C10: the copy clause at `{phoneNumber: "p"}`, the binding
pass-through at a concrete wrapped call, and the alias-move clause at the
`send_quick_bulk_sms` alias pair. -/
theorem rewrites_copy_aliases_move_witness :
    (lookupA (normalize [("phoneNumber", Val.str "p")]) "phoneNumber" =
        lookupA [("phoneNumber", Val.str "p")] "phoneNumber" ∧
      hasKey (normalize [("phoneNumber", Val.str "p")]) "phone" = true) ∧
    lookupA (normalize [("phoneNumber", Val.str "p")]) "phone" = some (Val.str "p") ∧
    lookupA [("phoneNumber", Val.str "p"), ("phone", Val.str "p")] "phoneNumber" =
      some (Val.str "p") ∧
    (applyAliases [("recipients", "recipient")] [("recipients", Val.str "r")] =
        setK (eraseK [("recipients", Val.str "r")] "recipients") "recipient"
          (Val.str "r") ∧
      hasKey (applyAliases [("recipients", "recipient")] [("recipients", Val.str "r")])
          "recipients" = false ∧
      lookupA (applyAliases [("recipients", "recipient")] [("recipients", Val.str "r")])
          "recipient" = some (Val.str "r")) :=
  ⟨(rewrites_copy_aliases_move.1 [("phoneNumber", Val.str "p")] "phoneNumber"
      (by decide) rfl rfl),
   rewrites_copy_aliases_move.2.1 [("phoneNumber", Val.str "p")] "phoneNumber"
      (Val.str "p") (by simp) (by decide) rfl rfl
      (by
        intro kv hkv hc
        rcases List.mem_cons.1 hkv with h1 | h1
        · rw [h1]
        · simp at h1),
   rewrites_copy_aliases_move.2.2.1 [] ⟨[], [], [], [], [], [], []⟩
      [("phoneNumber", Val.str "p")]
      [("phoneNumber", Val.str "p"), ("phone", Val.str "p")] "phoneNumber"
      (Val.str "p") rfl rfl (fun p hp => absurd hp (by simp)) (by simp) rfl,
   rewrites_copy_aliases_move.2.2.2 [("recipients", Val.str "r")] "recipients"
      "recipient" (Val.str "r") (by simp) (by decide) rfl rfl⟩

end MNotify
